import Mathlib

/-!
Verification of the gutberg text-extraction / pagination / prefix-index core.

The definitions below are shallow embeddings of the Go functions in
`gutemberg.go` and the TUI model file.  Go strings are modelled as Lean
`String` / `List Char`, Go `int` as `ℤ` (or `ℕ` where the source value is
always a length), and the regexp calls are modelled by explicit scanners
that implement exactly the compiled pattern's semantics (leftmost match,
lazy groups matching as little as possible, `(?i)` as ASCII case folding).
All recursion is structural (fuel-based where needed) so that every
definition evaluates by kernel reduction.
-/

namespace Gutberg

/-- Whitespace test mirroring Go `unicode.IsSpace` (the Unicode White_Space
property: ASCII whitespace, NEL, NBSP and the Unicode space separators). -/
def goIsSpace (c : Char) : Bool :=
  c == ' ' || c == '\t' || c == '\n' || c == '\x0b' || c == '\x0c' || c == '\r' ||
  c.toNat == 0x85 || c.toNat == 0xa0 || c.toNat == 0x1680 ||
  (0x2000 ≤ c.toNat && c.toNat ≤ 0x200a) ||
  c.toNat == 0x2028 || c.toNat == 0x2029 || c.toNat == 0x202f ||
  c.toNat == 0x205f || c.toNat == 0x3000

/-- Character-list form of Go `strings.TrimSpace`: drop `unicode.IsSpace`
characters from both ends. -/
def goTrimSpaceCh (l : List Char) : List Char :=
  ((l.dropWhile goIsSpace).reverse.dropWhile goIsSpace).reverse

/-- Go `strings.TrimSpace` on `String`. -/
def goTrimSpace (s : String) : String :=
  String.mk (goTrimSpaceCh s.data)

/-- Splitter behind Go `strings.Fields`: maximal runs of non-space characters,
accumulated in `acc` (reversed) while scanning. -/
def fieldsGo : List Char → List Char → List (List Char)
  | [], acc => if acc.isEmpty then [] else [acc.reverse]
  | c :: cs, acc =>
    if goIsSpace c then
      if acc.isEmpty then fieldsGo cs [] else acc.reverse :: fieldsGo cs []
    else
      fieldsGo cs (c :: acc)

/-- Go `strings.Fields`: the whitespace-separated words of a string. -/
def goFields (s : String) : List String :=
  (fieldsGo s.data []).map String.mk

/-- Go `strings.Split(s, "\n")` on character lists. -/
def splitNlCh : List Char → List (List Char)
  | [] => [[]]
  | c :: cs =>
    if c = '\n' then [] :: splitNlCh cs
    else (splitNlCh cs).modifyHead (c :: ·)

/-- Join character-list lines with a single newline (inverse of `splitNlCh`). -/
def joinNl : List (List Char) → List Char
  | [] => []
  | [l] => l
  | l :: ls => l ++ '\n' :: joinNl ls

/-- Go `compactSpaces`: `strings.Join(strings.Fields(line), " ")`, with the
explicit empty-fields early return of the source. -/
def compactSpacesCh (l : List Char) : List Char :=
  match fieldsGo l [] with
  | [] => []
  | f :: fs => joinSp (f :: fs)
where
  /-- Join fields with single spaces (Go `strings.Join(fields, " ")`). -/
  joinSp : List (List Char) → List Char
    | [] => []
    | [w] => w
    | w :: ws => w ++ ' ' :: joinSp ws

/-- Replacement pass of the regex `\n{3,}` by a paragraph break: runs of `k`
consecutive newlines are emitted as `min k 2` newlines (runs of length one or
two are untouched, longer runs collapse to exactly two).  `k` counts the
pending newlines seen so far. -/
def collapseNlGo : List Char → ℕ → List Char
  | [], k => List.replicate (min k 2) '\n'
  | c :: cs, k =>
    if c = '\n' then collapseNlGo cs (k + 1)
    else List.replicate (min k 2) '\n' ++ c :: collapseNlGo cs 0

/-- Go `normalizeWhitespace`: per line compact internal spaces and trim, join
the lines back, collapse 3-or-more newlines to a paragraph break, and trim
the whole result. -/
def normalizeWhitespace (s : String) : String :=
  let ls := (splitNlCh s.data).map (fun l => goTrimSpaceCh (compactSpacesCh l))
  String.mk (goTrimSpaceCh (collapseNlGo (joinNl ls) 0))

/-- Core of Go `stripTags`: the two-state (inside-tag / outside-tag) scanner.
`<` enters the tag state, `>` leaves it, and a character is kept only while
outside a tag; the brackets themselves are never emitted. -/
def stripTagsCh (inTag : Bool) : List Char → List Char
  | [] => []
  | c :: rest =>
    if c = '<' then stripTagsCh true rest
    else if c = '>' then stripTagsCh false rest
    else if inTag then stripTagsCh inTag rest
    else c :: stripTagsCh inTag rest

/-- Go `stripTags`. -/
def stripTags (s : String) : String :=
  String.mk (stripTagsCh false s.data)

/-- Tag-scanner state after consuming a list of characters. -/
def tagState (b : Bool) : List Char → Bool
  | [] => b
  | c :: rest =>
    if c = '<' then tagState true rest
    else if c = '>' then tagState false rest
    else tagState b rest

/-! ### Geometry derivation (`computePageLayout`, TUI model file) -/

/-- Default page width (`pageLineWidth` constant). -/
def pageLineWidth : ℤ := 80

/-- Default page line count (`pageLineCount` constant). -/
def pageLineCount : ℤ := 25

/-- Go `computePageLayout(width, height, scale)`: derive the page geometry
from the viewport and font scale.  Nonpositive viewport dimensions fall back
to the defaults; the result is floored at 40 columns and 10 lines. -/
def computePageLayout (width height scale : ℤ) : ℤ × ℤ :=
  let baseWidth := if width > 0 then width - 4 else pageLineWidth
  let baseLines := if height > 0 then height - 8 else pageLineCount
  let pageWidth := baseWidth - scale * 4
  let pageLines := baseLines - scale * 2
  let pageWidth := if pageWidth < 40 then 40 else pageWidth
  let pageLines := if pageLines < 10 then 10 else pageLines
  (pageWidth, pageLines)

/-! ### Word wrapping and pagination -/

/-- Display width of a string for a given per-character cell-width function,
as computed by `runewidth.StringWidth` (the sum of the rune widths). -/
def strWidth (cw : Char → ℕ) (s : String) : ℕ :=
  (s.data.map cw).sum

/-- Cell-width model of `go-runewidth` for the character classes that occur
in this development: C0 control characters and combining diacritical marks
(U+0300–U+036F) have width 0, the common East-Asian wide ranges width 2,
and everything else width 1. -/
def runewidthModel (c : Char) : ℕ :=
  let n := c.toNat
  if n < 0x20 then 0
  else if 0x300 ≤ n && n ≤ 0x36f then 0
  else if (0x1100 ≤ n && n ≤ 0x115f) || (0x2e80 ≤ n && n ≤ 0xa4cf) ||
          (0xac00 ≤ n && n ≤ 0xd7a3) || (0xf900 ≤ n && n ≤ 0xfaff) ||
          (0xff00 ≤ n && n ≤ 0xff60) || (0x20000 ≤ n && n ≤ 0x2fffd) then 2
  else 1

/-- Loop body of Go `wrapParagraph`: `cur` is the text of the line being
built (the builder content since the last emitted newline) and `lineLen` the
running width counter of the source.  A word starts the line when
`lineLen == 0`, is pushed to a fresh line when it would overflow `width`,
and is otherwise appended after a single space. -/
def wrapAux (cw : Char → ℕ) (width : ℤ) : List String → String → ℤ → List String
  | [], cur, _ => [cur]
  | w :: ws, cur, lineLen =>
    let wWidth : ℤ := (strWidth cw w : ℤ)
    if lineLen = 0 then wrapAux cw width ws (cur ++ w) wWidth
    else if lineLen + 1 + wWidth > width then cur :: wrapAux cw width ws w wWidth
    else wrapAux cw width ws (cur ++ " " ++ w) (lineLen + 1 + wWidth)

/-- The display lines produced by Go `wrapParagraph` (the builder output,
split at the newlines the loop writes). -/
def wrapParagraphLines (cw : Char → ℕ) (text : String) (width : ℤ) : List String :=
  match goFields text with
  | [] => []
  | w :: ws => wrapAux cw width (w :: ws) "" 0

/-- Go `wrapParagraph`: word-wrap one paragraph to `width` display cells
(an empty word list yields the empty string). -/
def wrapParagraph (cw : Char → ℕ) (text : String) (width : ℤ) : String :=
  "\n".intercalate (wrapParagraphLines cw text width)

/-- Go `strings.Split(s, "\n\n")` (leftmost, non-overlapping). -/
def splitPB : List Char → List (List Char)
  | [] => [[]]
  | '\n' :: '\n' :: rest => [] :: splitPB rest
  | c :: rest => (splitPB rest).modifyHead (c :: ·)

/-- Go `wrapText`: split on paragraph breaks, trim each part, drop empty
parts, wrap each remaining paragraph, and re-join with paragraph breaks. -/
def wrapText (cw : Char → ℕ) (text : String) (width : ℤ) : String :=
  let parts := (splitPB text.data).map (fun l => goTrimSpace (String.mk l))
  "\n\n".intercalate ((parts.filter (fun p => p ≠ "")).map
    (fun p => wrapParagraph cw p width))

/-- Chunking loop of Go `paginate`: slices of `n` lines (`fuel` bounds the
number of iterations; the Go loop `i += linesPerPage` does not terminate for
`n = 0`, a case its callers exclude by clamping `lines ≥ 5`). -/
def chunksAux (n : ℕ) : ℕ → List String → List (List String)
  | _, [] => []
  | 0, l => [l]
  | fuel + 1, l => l.take n :: chunksAux n fuel (l.drop n)

/-- Pages of `n` lines each (last one possibly shorter). -/
def chunksOf (n : ℕ) (l : List String) : List (List String) :=
  chunksAux n l.length l

/-- Lines of a string, as Go `strings.Split(s, "\n")`. -/
def goLines (s : String) : List String :=
  (splitNlCh s.data).map String.mk

/-- Go `paginate(text, linesPerPage, lineWidth)`: wrap the text, split into
display lines, group into `linesPerPage`-sized pages and trim each page;
whitespace-only text yields no pages. -/
def paginate (cw : Char → ℕ) (text : String) (linesPerPage lineWidth : ℤ) : List String :=
  if goTrimSpace text = "" then []
  else
    (chunksOf linesPerPage.toNat (goLines (wrapText cw text lineWidth))).map
      (fun c => goTrimSpace (String.mk (joinNl (c.map String.data))))

/-- Go `Chapter` (the fields used by the pagination core). -/
structure Chapter where
  title : String
  text : String
  startPage : ℕ
deriving DecidableEq, Repr

/-- Go `Book`. -/
structure Book where
  title : String
  chapters : List Chapter
  pages : List String
deriving DecidableEq, Repr

/-- Width floor applied by `buildBookPagesForSize`. -/
def clampWidth (w : ℤ) : ℤ := if w < 20 then 20 else w

/-- Line floor applied by `buildBookPagesForSize`. -/
def clampLines (l : ℤ) : ℤ := if l < 5 then 5 else l

/-- The text paginated for a chapter: the chapter title as a header, a
paragraph break, the body, trimmed (Go builds `header + text` and trims). -/
def chapterText (ch : Chapter) : String :=
  goTrimSpace (ch.title ++ "\n\n" ++ ch.text)

/-- Number of pages a chapter produces at the given (already clamped)
geometry. -/
def chapterPageCount (cw : Char → ℕ) (w ln : ℤ) (ch : Chapter) : ℕ :=
  (paginate cw (chapterText ch) ln w).length

/-- Loop of Go `buildBookPagesForSize`: set each chapter's `StartPage` to
the current page total, paginate it, and append its pages. -/
def buildLoop (cw : Char → ℕ) (w ln : ℤ) :
    List Chapter → List String → List Chapter → List String × List Chapter
  | [], pages, acc => (pages, acc)
  | ch :: rest, pages, acc =>
    let ch' := { ch with startPage := pages.length }
    buildLoop cw w ln rest (pages ++ paginate cw (chapterText ch) ln w) (acc ++ [ch'])

/-- Go `buildBookPagesForSize(book, width, lines)`: clamp the geometry and
paginate every chapter in order, assigning start pages. -/
def buildBookPagesForSize (cw : Char → ℕ) (book : Book) (width lines : ℤ) :
    List String × List Chapter :=
  buildLoop cw (clampWidth width) (clampLines lines) book.chapters [] []

/-- Specification helper: the chapters produced by the build loop, with
`startPage` assigned from a running page total `k`. -/
def assignStartPages (cw : Char → ℕ) (w ln : ℤ) : List Chapter → ℕ → List Chapter
  | [], _ => []
  | ch :: rest, k =>
    { ch with startPage := k } ::
      assignStartPages cw w ln rest (k + chapterPageCount cw w ln ch)

/-- Sample book used by concrete witnesses. -/
def demoBook : Book :=
  ⟨"Demo", [⟨"One", "hello there", 0⟩, ⟨"Two", "general kenobi", 0⟩], []⟩

/-! ### Regex scanners for the extraction pipeline

Each compiled regexp in the source is modelled by an explicit scanner with
the exact semantics of the pattern (leftmost match, lazy groups as short as
possible, greedy stars, `(?i)` as case folding). -/

/-- Case-insensitive prefix test (regex `(?i)` folding on pattern vs input). -/
def ciPrefix : List Char → List Char → Bool
  | [], _ => true
  | _ :: _, [] => false
  | p :: ps, c :: cs => if p.toLower = c.toLower then ciPrefix ps cs else false

/-- First index at which `pat` matches case-insensitively, scanning left to
right (`fuel` bounds the scan; callers pass the input length). -/
def findCiIdx (pat : List Char) : ℕ → List Char → Option ℕ
  | 0, l => if ciPrefix pat l then some 0 else none
  | fuel + 1, l =>
    if ciPrefix pat l then some 0
    else
      match l with
      | [] => none
      | _ :: rest => (findCiIdx pat fuel rest).map (· + 1)

/-- Length of an opening `<style[^>]*>` match at the head of the input
(pattern `(?is)<style[^>]*>`): the literal, then non-`>` characters, then
`>`. -/
def styleOpenLen (l : List Char) : Option ℕ :=
  if ciPrefix "<style".data l then
    let r := l.drop 6
    let a := (r.takeWhile (fun c => !(c == '>'))).length
    match (r.drop a).head? with
    | some _ => some (6 + a + 1)
    | none => none
  else none

/-- Length of a `pg-header`/`pg-footer` opener at the head of the input.
The source patterns are written `<div\\s+id=\"pg-header\"` inside Go raw
strings, so the compiled regex demands a literal backslash after `<div`,
then one or more letters `s`, then the quoted id: this scanner implements
exactly that (and therefore never fires on real markup). -/
def pgOpenLen (idLit : List Char) (l : List Char) : Option ℕ :=
  if ciPrefix "<div".data l then
    match l.drop 4 with
    | '\\' :: r2 =>
      let sc := (r2.takeWhile (fun c => c == 's' || c == 'S')).length
      if 1 ≤ sc ∧ ciPrefix idLit (r2.drop sc) then some (4 + 1 + sc + idLit.length)
      else none
    | _ => none
  else none

/-- `regexp.ReplaceAllString(input, "")` for a section pattern
`OPEN.*?CLOSE` (with `(?s)`): at each position, if the opener matches and a
closer follows, delete through the first closer and continue after it;
otherwise keep the character and move on. -/
def stripSectionsAux (openLen : List Char → Option ℕ) (closePat : List Char) :
    ℕ → List Char → List Char
  | 0, l => l
  | _ + 1, [] => []
  | fuel + 1, c :: rest =>
    match openLen (c :: rest) with
    | some olen =>
      let body := (c :: rest).drop olen
      match findCiIdx closePat body.length body with
      | some j => stripSectionsAux openLen closePat fuel (body.drop (j + closePat.length))
      | none => c :: stripSectionsAux openLen closePat fuel rest
    | none => c :: stripSectionsAux openLen closePat fuel rest

/-- The `\s` character class of the regexp package (ASCII Perl class). -/
def reSpace (c : Char) : Bool :=
  c == ' ' || c == '\t' || c == '\n' || c == '\x0c' || c == '\r'

/-- The `\w`/`\b` word-character class `[0-9A-Za-z_]`. -/
def wordChar (c : Char) : Bool :=
  ('0' ≤ c && c ≤ '9') || ('a' ≤ c && c ≤ 'z') || ('A' ≤ c && c ≤ 'Z') || c == '_'

/-- Length of a match of `(?i)<\s*TAG\b[^>]*>` at the head of the input
(the pattern compiled by `replaceAllTag`). -/
def tagMatchLen (tag : List Char) (l : List Char) : Option ℕ :=
  match l with
  | '<' :: r1 =>
    let wsp := (r1.takeWhile reSpace).length
    let r2 := r1.drop wsp
    if ciPrefix tag r2 then
      let r3 := r2.drop tag.length
      match r3.head? with
      | some c =>
        if wordChar c then none
        else
          let a := (r3.takeWhile (fun x => !(x == '>'))).length
          match (r3.drop a).head? with
          | some _ => some (1 + wsp + tag.length + a + 1)
          | none => none
      | none => none
    else none
  | _ => none

/-- Go `replaceAllTag(input, tag, replacement)`: replace every
non-overlapping leftmost match of `(?i)<\s*TAG\b[^>]*>` by `rep`. -/
def replaceTagAll (tag rep : List Char) : ℕ → List Char → List Char
  | 0, l => l
  | _ + 1, [] => []
  | fuel + 1, c :: rest =>
    match tagMatchLen tag (c :: rest) with
    | some len => rep ++ replaceTagAll tag rep fuel ((c :: rest).drop len)
    | none => c :: replaceTagAll tag rep fuel rest

/-- Model of Go `html.UnescapeString` restricted to the five predefined
character entities and decimal numeric references, the only forms exercised
here; unknown ampersand sequences pass through unchanged, as in Go. -/
def unescapeAux : ℕ → List Char → List Char
  | 0, l => l
  | _ + 1, [] => []
  | fuel + 1, '&' :: rest =>
    if "amp;".data.isPrefixOf rest then '&' :: unescapeAux fuel (rest.drop 4)
    else if "lt;".data.isPrefixOf rest then '<' :: unescapeAux fuel (rest.drop 3)
    else if "gt;".data.isPrefixOf rest then '>' :: unescapeAux fuel (rest.drop 3)
    else if "quot;".data.isPrefixOf rest then '"' :: unescapeAux fuel (rest.drop 5)
    else if "apos;".data.isPrefixOf rest then Char.ofNat 39 :: unescapeAux fuel (rest.drop 5)
    else
      match rest with
      | '#' :: ds =>
        let digs := ds.takeWhile (fun c => '0' ≤ c && c ≤ '9')
        match (ds.drop digs.length).head? with
        | some ';' =>
          if digs.isEmpty then '&' :: unescapeAux fuel rest
          else
            Char.ofNat (digs.foldl (fun acc c => acc * 10 + (c.toNat - 48)) 0) ::
              unescapeAux fuel (ds.drop (digs.length + 1))
        | _ => '&' :: unescapeAux fuel rest
      | _ => '&' :: unescapeAux fuel rest
  | fuel + 1, c :: rest => c :: unescapeAux fuel rest

/-- Line-ending normalization of `cleanHTMLToText`: `\r\n` to `\n`, then
stray `\r` to `\n` (the two sequential `strings.ReplaceAll` passes). -/
def normNl : List Char → List Char
  | [] => []
  | '\r' :: '\n' :: rest => '\n' :: normNl rest
  | '\r' :: rest => '\n' :: normNl rest
  | c :: rest => c :: normNl rest

/-! ### The Gutenberg boilerplate stripper and its buggy regexes

The marker patterns are written inside Go raw string literals as
`\\*\\*\\*\\s*START OF THE PROJECT GUTENBERG.*?\\*\\*\\*` (and the `END`
twin).  In a raw string `\\` is two characters, so the regexp engine parses
the leading part as three atoms "zero or more literal backslashes", one
mandatory literal backslash, and "zero or more letters s" — not as three
asterisks and whitespace.  A match therefore requires a literal `\` in the
text, followed by letters `s`, the literal marker words, and (after the
lazy `.*?`, which matches nothing) any trailing run of backslashes. -/

/-- Greedy `s*` backtracking: the largest `m ≤ smax` such that `pat` matches
case-insensitively after skipping `m` characters. -/
def backSTry (pat : List Char) (l2 : List Char) : ℕ → Option ℕ
  | 0 => if ciPrefix pat l2 then some 0 else none
  | m + 1 => if ciPrefix pat (l2.drop (m + 1)) then some (m + 1) else backSTry pat l2 m

/-- Match of the (mis-escaped) marker pattern at the head of the input:
a nonempty run of literal backslashes, a greedy run of `s`/`S`, the literal
marker words (case-insensitive), and a trailing backslash run.  Returns the
match length. -/
def bsMarkerAt (pat : List Char) (l : List Char) : Option ℕ :=
  let k := (l.takeWhile (fun c => c == '\\')).length
  if k = 0 then none
  else
    let l2 := l.drop k
    let smax := (l2.takeWhile (fun c => c == 's' || c == 'S')).length
    match backSTry pat l2 smax with
    | some m =>
      let t := ((l2.drop (m + pat.length)).takeWhile (fun c => c == '\\')).length
      some (k + m + pat.length + t)
    | none => none

/-- Leftmost match of the marker pattern: returns (start, end) indices. -/
def scanBsMarker (pat : List Char) : ℕ → ℕ → List Char → Option (ℕ × ℕ)
  | 0, _, _ => none
  | _ + 1, _, [] => none
  | fuel + 1, p, c :: rest =>
    match bsMarkerAt pat (c :: rest) with
    | some len => some (p, p + len)
    | none => scanBsMarker pat fuel (p + 1) rest

/-- Marker words of the start regex (matched case-insensitively). -/
def startMarkerLit : List Char := "start of the project gutenberg".data

/-- Marker words of the end regex (matched case-insensitively). -/
def endMarkerLit : List Char := "end of the project gutenberg".data

/-- Replacement pass of `(?m)^The Project Gutenberg eBook of.*$` by the
empty string: every line starting with the (case-sensitive) attribution
prefix is emptied, the newlines staying in place. -/
def stripHeaderLines (l : List Char) : List Char :=
  joinNl ((splitNlCh l).map (fun ln =>
    if "The Project Gutenberg eBook of".data.isPrefixOf ln then [] else ln))

/-- Go `stripGutenbergBoilerplate`: cut everything up to the end of a start
marker match and from the beginning of an end marker match, drop
attribution lines, and re-normalize whitespace.  (Because of the
mis-escaped patterns, the marker scans only fire on text containing literal
backslashes.) -/
def stripGutenbergBoilerplate (text : String) : String :=
  if text = "" then text
  else
    let cs := text.data
    let cs1 :=
      match scanBsMarker startMarkerLit cs.length 0 cs with
      | some (_, e) => cs.drop e
      | none => cs
    let cs2 :=
      match scanBsMarker endMarkerLit cs1.length 0 cs1 with
      | some (s, _) => cs1.take s
      | none => cs1
    normalizeWhitespace (String.mk (stripHeaderLines cs2))

/-! ### The full text extraction pipeline -/

/-- Go `cleanHTMLToText`: normalize line endings, strip style and (nominal)
pg-header/pg-footer sections, turn break/paragraph/rule tags into newlines,
strip the remaining tags, decode entities, normalize whitespace, and strip
the provenance boilerplate. -/
def cleanHTMLToText (input : String) : String :=
  let n0 := normNl input.data
  let n1 := stripSectionsAux styleOpenLen "</style>".data n0.length n0
  let n2 := stripSectionsAux (pgOpenLen "id=\"pg-header\"".data) "</div>".data n1.length n1
  let n3 := stripSectionsAux (pgOpenLen "id=\"pg-footer\"".data) "</div>".data n2.length n2
  let n4 := replaceTagAll "br".data "\n".data n3.length n3
  let n5 := replaceTagAll "/p".data "\n\n".data n4.length n4
  let n6 := replaceTagAll "p".data "".data n5.length n5
  let n7 := replaceTagAll "hr".data "\n".data n6.length n6
  let t1 := stripTagsCh false n7
  let t2 := unescapeAux t1.length t1
  stripGutenbergBoilerplate (normalizeWhitespace (String.mk t2))

/-- Go `cleanInlineText`: strip tags, decode entities, trim. -/
def cleanInlineText (input : List Char) : String :=
  goTrimSpace (String.mk (unescapeAux (stripTagsCh false input).length
    (stripTagsCh false input)))

/-- Go `extractTitle`: first `(?is)<title>(.*?)</title>` group, tag-stripped,
entity-decoded and trimmed; empty when absent. -/
def extractTitle (data : String) : String :=
  let cs := data.data
  match findCiIdx "<title>".data cs.length cs with
  | none => ""
  | some i =>
    let body := cs.drop (i + 7)
    match findCiIdx "</title>".data body.length body with
    | none => ""
    | some j =>
      goTrimSpace (String.mk (unescapeAux (stripTagsCh false (body.take j)).length
        (stripTagsCh false (body.take j))))

/-- Length of an opening `<h[1-3][^>]*>` match at the head of the input. -/
def headOpenLen : List Char → Option ℕ
  | '<' :: c :: d :: rest =>
    if (c == 'h' || c == 'H') && (d == '1' || d == '2' || d == '3') then
      let a := (rest.takeWhile (fun x => !(x == '>'))).length
      match (rest.drop a).head? with
      | some _ => some (3 + a + 1)
      | none => none
    else none
  | _ => none

/-- Does a closing `</h[1-3]>` start here? -/
def headCloseAt : List Char → Bool
  | '<' :: '/' :: c :: d :: '>' :: _ =>
    (c == 'h' || c == 'H') && (d == '1' || d == '2' || d == '3')
  | _ => false

/-- First offset at which a closing heading tag starts. -/
def findClose : ℕ → List Char → Option ℕ
  | 0, l => if headCloseAt l then some 0 else none
  | fuel + 1, l =>
    if headCloseAt l then some 0
    else
      match l with
      | [] => none
      | _ :: rest => (findClose fuel rest).map (· + 1)

/-- All non-overlapping leftmost matches of `(?is)<h[1-3][^>]*>(.*?)</h[1-3]>`
as (start, end, group start, group end) index quadruples, mirroring the
result of `FindAllSubmatchIndex`. -/
def findHeadingsAux : ℕ → ℕ → List Char → List (ℕ × ℕ × ℕ × ℕ)
  | 0, _, _ => []
  | _ + 1, _, [] => []
  | fuel + 1, p, c :: rest =>
    match headOpenLen (c :: rest) with
    | some olen =>
      let body := (c :: rest).drop olen
      match findClose body.length body with
      | some j =>
        (p, p + olen + j + 5, p + olen, p + olen + j) ::
          findHeadingsAux fuel (p + olen + j + 5) ((c :: rest).drop (olen + j + 5))
      | none => findHeadingsAux fuel (p + 1) rest
    | none => findHeadingsAux fuel (p + 1) rest

/-- Heading matches of a document. -/
def findHeadings (cs : List Char) : List (ℕ × ℕ × ℕ × ℕ) :=
  findHeadingsAux cs.length 0 cs

/-- Byte-range slice `data[a:b]`. -/
def sliceCh (cs : List Char) (a b : ℕ) : List Char :=
  (cs.drop a).take (b - a)

/-- Chapter construction loop of `extractChaptersFromHTML`: each heading's
inner text becomes the title and the span to the next heading (or document
end) becomes the chapter body. -/
def chaptersFromMatches (cs : List Char) : List (ℕ × ℕ × ℕ × ℕ) → List Chapter
  | [] => []
  | (_, e, gs, ge) :: ms =>
    let endPos :=
      match ms with
      | (s2, _, _, _) :: _ => s2
      | [] => cs.length
    { title := cleanInlineText (sliceCh cs gs ge),
      text := cleanHTMLToText (String.mk (sliceCh cs e endPos)),
      startPage := 0 } :: chaptersFromMatches cs ms

/-- The chapters remaining after dropping those whose cleaned text is
empty. -/
def chaptersKept (data : String) : List Chapter :=
  (chaptersFromMatches data.data (findHeadings data.data)).filter
    (fun ch => goTrimSpace ch.text != "")

/-- Go `extractChaptersFromHTML`: nil when no headings are found or at most
one nonempty chapter remains. -/
def extractChaptersFromHTML (data : String) : List Chapter :=
  if findHeadings data.data = [] then []
  else if (chaptersKept data).length ≤ 1 then []
  else chaptersKept data

/-- Go `loadBookFromHTML` (file reading elided; `data` is the file body):
extract the title with the `"Untitled"` fallback, segment into chapters
with the whole-document fallback, and paginate. -/
def loadBookFromHTML (cw : Char → ℕ) (data : String) (width lines : ℤ) : Book :=
  let title0 := extractTitle data
  let title := if title0 = "" then "Untitled" else title0
  let chapters0 := extractChaptersFromHTML data
  let chapters1 :=
    if chapters0 = [] then
      [{ title := title, text := cleanHTMLToText data, startPage := 0 }]
    else chapters0
  let r := buildBookPagesForSize cw { title := title, chapters := chapters1, pages := [] }
    width lines
  { title := title, chapters := r.2, pages := r.1 }

/-- Concrete document exercising the boilerplate bug: the canonical marker
frame with a prefix and a suffix, no backslash anywhere. -/
def c1doc : String :=
  "Intro remarks.\n\n*** START OF THE PROJECT GUTENBERG EBOOK X ***\n\nBody text here.\n\n*** END OF THE PROJECT GUTENBERG EBOOK X ***\n\nTrailing notes."

/-- Concrete document with no title element and no headings. -/
def c9doc : String := "<p>Hello world</p>"

/-! ### Author prefix index (`newModel` / `filterAuthors`) -/

/-- Go `strings.ToLower`, modelled on the ASCII range (the full Unicode
simple case folding is not needed for any statement here). -/
def goToLower (s : String) : String :=
  String.mk (s.data.map Char.toLower)

/-- The `authorsLower` array built by `newModel`: a parallel array filled by
the indexed loop `for i, name := range authors`. -/
def authorsLowerOf (authors : List String) : List String :=
  (List.range authors.length).map (fun i => goToLower (authors.getD i ""))

/-- Byte-lexicographic string order of Go (`<`, `>=` on strings); on valid
UTF-8 byte order and code-point order coincide. -/
def lexLe : List Char → List Char → Bool
  | [], _ => true
  | _ :: _, [] => false
  | a :: as, b :: bs => if a < b then true else if b < a then false else lexLe as bs

/-- Loop of Go `sort.Search`: binary search for the first index in `[i, j)`
satisfying `f` (assuming `f` monotone), with `fuel` bounding iterations. -/
def sortSearchAux (f : ℕ → Bool) : ℕ → ℕ → ℕ → ℕ
  | 0, i, _ => i
  | fuel + 1, i, j =>
    if i < j then
      let h := (i + j) / 2
      if f h then sortSearchAux f fuel i h else sortSearchAux f fuel (h + 1) j
    else i

/-- Go `sort.Search(n, f)`. -/
def goSortSearch (n : ℕ) (f : ℕ → Bool) : ℕ :=
  sortSearchAux f n 0 n

/-- Scan loop of `filterAuthors`: from index `i`, collect display names while
the lowercased key still has `p` as a prefix, stopping once `limit > 0`
results have been gathered.  `acc` holds the results in reverse. -/
def collectAuthorsAux (authors authorsLower : List String) (p : String) (limit : ℤ) :
    ℕ → ℕ → List String → List String
  | 0, _, acc => acc.reverse
  | fuel + 1, i, acc =>
    if i < authorsLower.length then
      if p.data.isPrefixOf (authorsLower.getD i "").data then
        let acc' := authors.getD i "" :: acc
        if 0 < limit ∧ limit ≤ (acc'.length : ℤ) then acc'.reverse
        else collectAuthorsAux authors authorsLower p limit fuel (i + 1) acc'
      else acc.reverse
    else acc.reverse

/-- Go `filterAuthors(authors, authorsLower, prefix, limit)`.  A trimmed,
lowercased empty query returns nil; then `items := make([]list.Item, 0,
limit)` panics in Go when `limit` is negative (modelled as `none`);
otherwise binary-search for the first key `>= p` and scan forward. -/
def filterAuthors (authors authorsLower : List String) (query : String) (limit : ℤ) :
    Option (List String) :=
  let p := goTrimSpace (goToLower query)
  if p = "" then some []
  else
    let start := goSortSearch authorsLower.length
      (fun i => lexLe p.data (authorsLower.getD i "").data)
    if limit < 0 then none
    else some (collectAuthorsAux authors authorsLower p limit authorsLower.length start [])

/-- Truncation semantics of the `limit` parameter (`limit > 0` caps the
result, other values leave it unbounded). -/
def limitTake (limit : ℤ) (l : List String) : List String :=
  if 0 < limit then l.take limit.toNat else l

/-- The three-author index of the specification's example. -/
def demoAuthors : List String :=
  ["Austen, Jane", "Doyle, Arthur Conan", "Dumas, Alexandre"]

/-! ### IEEE-754 binary64 model for `remapPage`

`remapPage` divides and multiplies in Go `float64`.  A finite double is a
value `man * 2^ex`; `roundF a b` rounds the exact rational `a / b` to 53
significant bits with round-to-nearest, ties-to-even — the IEEE semantics
Go guarantees.  Overflow and subnormals are outside the range these
theorems exercise. -/

/-- Floor of the base-2 logarithm (fuel-based binary chop). -/
def natLog2Aux : ℕ → ℕ → ℕ
  | 0, _ => 0
  | fuel + 1, n => if n ≤ 1 then 0 else natLog2Aux fuel (n / 2) + 1

/-- Floor of the base-2 logarithm of a positive natural. -/
def natLog2 (n : ℕ) : ℕ :=
  natLog2Aux n n

/-- A binary64 value `man * 2^ex` (unnormalized mantissa/exponent pair). -/
structure F64 where
  man : ℤ
  ex : ℤ
deriving DecidableEq, Repr

/-- Round the positive rational `a / b` (both nonzero) to a 53-bit mantissa
`m` and exponent `t` with `m * 2^t` the nearest representable, ties to the
even mantissa. -/
def roundPos (a b : ℕ) : ℕ × ℤ :=
  let k := natLog2 a
  let l := natLog2 b
  let ge : Bool := if l ≤ k then decide (b * 2 ^ (k - l) ≤ a) else decide (b ≤ a * 2 ^ (l - k))
  let e : ℤ := if ge then (k : ℤ) - l else (k : ℤ) - l - 1
  let t : ℤ := e - 52
  let num := if 0 ≤ t then a else a * 2 ^ (-t).toNat
  let den := if 0 ≤ t then b * 2 ^ t.toNat else b
  let q := num / den
  let r := num % den
  let m :=
    if den < 2 * r then q + 1
    else if 2 * r < den then q
    else if q % 2 = 0 then q else q + 1
  (m, t)

/-- Round the rational `a / b` to the nearest binary64 (zero when either
argument is zero; division by zero is unreachable in the guarded caller). -/
def roundF (a b : ℤ) : F64 :=
  if a = 0 ∨ b = 0 then ⟨0, 0⟩
  else
    let mt := roundPos a.natAbs b.natAbs
    ⟨if (0 < a) = (0 < b) then (mt.1 : ℤ) else -(mt.1 : ℤ), mt.2⟩

/-- Go `float64(n)` conversion. -/
def ofIntF (n : ℤ) : F64 :=
  roundF n 1

/-- Binary64 division with correct rounding. -/
def divF (x y : F64) : F64 :=
  let d := x.ex - y.ex
  if 0 ≤ d then roundF (x.man * 2 ^ d.toNat) y.man
  else roundF x.man (y.man * 2 ^ (-d).toNat)

/-- Binary64 multiplication with correct rounding. -/
def mulF (x y : F64) : F64 :=
  let s := x.ex + y.ex
  if 0 ≤ s then roundF (x.man * y.man * 2 ^ s.toNat) 1
  else roundF (x.man * y.man) (2 ^ (-s).toNat)

/-- Go `int(x)` for a float64: truncation toward zero. -/
def truncF (x : F64) : ℤ :=
  if 0 ≤ x.ex then x.man * 2 ^ x.ex.toNat
  else
    let q : ℕ := x.man.natAbs / 2 ^ (-x.ex).toNat
    if 0 ≤ x.man then (q : ℤ) else -(q : ℤ)

/-- Go `remapPage(oldPage, oldTotal, newTotal)`: proportional remapping of
the reading position in float64 arithmetic, clamped to `[0, newTotal-1]`,
with zero totals giving page 0. -/
def remapPage (oldPage oldTotal newTotal : ℤ) : ℤ :=
  if oldTotal ≤ 0 ∨ newTotal ≤ 0 then 0
  else
    let progress := divF (ofIntF oldPage) (ofIntF oldTotal)
    let newPage := truncF (mulF progress (ofIntF newTotal))
    let newPage := if newPage < 0 then 0 else newPage
    if newTotal ≤ newPage then newTotal - 1 else newPage

/-! ## Theorems -/

theorem stripTagsCh_append (b : Bool) (l₁ l₂ : List Char) :
    stripTagsCh b (l₁ ++ l₂) = stripTagsCh b l₁ ++ stripTagsCh (tagState b l₁) l₂ := by
  induction l₁ generalizing b with
  | nil => rfl
  | cons c rest ih =>
    by_cases h1 : c = '<'
    · simp [stripTagsCh, tagState, h1, ih]
    · by_cases h2 : c = '>'
      · simp [stripTagsCh, tagState, h1, h2, ih]
      · cases b <;> simp [stripTagsCh, tagState, h1, h2, ih]

theorem stripTagsCh_no_brackets (b : Bool) (l : List Char) :
    '<' ∉ stripTagsCh b l ∧ '>' ∉ stripTagsCh b l := by
  induction l generalizing b with
  | nil => simp [stripTagsCh]
  | cons c rest ih =>
    by_cases h1 : c = '<'
    · simpa [stripTagsCh, h1] using ih true
    · by_cases h2 : c = '>'
      · simpa [stripTagsCh, h1, h2] using ih false
      · cases b with
        | true => simpa [stripTagsCh, h1, h2] using ih true
        | false =>
          have := ih false
          constructor
          · simp [stripTagsCh, h1, h2]
            exact ⟨fun hc => h1 hc.symm, this.1⟩
          · simp [stripTagsCh, h1, h2]
            exact ⟨fun hc => h2 hc.symm, this.2⟩

theorem stripTagsCh_inTag_drops (l : List Char) (h : '>' ∉ l) :
    stripTagsCh true l = [] := by
  induction l with
  | nil => rfl
  | cons c rest ih =>
    have hc : c ≠ '>' := fun hc => h (hc ▸ List.mem_cons_self c rest)
    have hrest : '>' ∉ rest := fun hm => h (List.mem_cons_of_mem c hm)
    by_cases h1 : c = '<' <;> simp [stripTagsCh, h1, hc, ih hrest]

theorem stripTagsCh_id_of_no_brackets (l : List Char)
    (h1 : '<' ∉ l) (h2 : '>' ∉ l) :
    stripTagsCh false l = l ∧ tagState false l = false := by
  induction l with
  | nil => exact ⟨rfl, rfl⟩
  | cons c rest ih =>
    have hc1 : c ≠ '<' := fun hc => h1 (hc ▸ List.mem_cons_self c rest)
    have hc2 : c ≠ '>' := fun hc => h2 (hc ▸ List.mem_cons_self c rest)
    have hr1 : '<' ∉ rest := fun hm => h1 (List.mem_cons_of_mem c hm)
    have hr2 : '>' ∉ rest := fun hm => h2 (List.mem_cons_of_mem c hm)
    have := ih hr1 hr2
    exact ⟨by simp [stripTagsCh, hc1, hc2, this.1], by simp [tagState, hc1, hc2, this.2]⟩

theorem strData_append (s t : String) : (s ++ t).data = s.data ++ t.data := rfl

theorem tagState_append (b : Bool) (l₁ l₂ : List Char) :
    tagState b (l₁ ++ l₂) = tagState (tagState b l₁) l₂ := by
  induction l₁ generalizing b with
  | nil => rfl
  | cons c rest ih =>
    by_cases h1 : c = '<'
    · simp [tagState, h1, ih]
    · by_cases h2 : c = '>' <;> simp [tagState, h1, h2, ih]

theorem tagState_append_lt (l : List Char) : tagState false (l ++ ['<']) = true := by
  rw [tagState_append]; rfl

theorem tagState_true_of_no_gt (l : List Char) (h : '>' ∉ l) : tagState true l = true := by
  induction l with
  | nil => rfl
  | cons c rest ih =>
    have hc : c ≠ '>' := fun hc => h (hc ▸ List.mem_cons_self c rest)
    have hrest : '>' ∉ rest := fun hmm => h (List.mem_cons_of_mem c hmm)
    by_cases h1 : c = '<' <;> simp [tagState, h1, hc, ih hrest]

/-- C10: the two-state tag scanner is total, its output never contains an
angle bracket, an unterminated `<` silently discards the rest of the input,
a `>` with no pending `<` is itself discarded while surrounding text is
kept, and everything strictly between a `<` and the next `>` is discarded. -/
theorem c10_striptags_properties (s t mid : String) :
    ('<' ∉ (stripTags s).data ∧ '>' ∉ (stripTags s).data) ∧
    ('>' ∉ t.data → stripTags (s ++ "<" ++ t) = stripTags s) ∧
    (('<' ∉ s.data ∧ '>' ∉ s.data) → stripTags (s ++ ">" ++ t) = s ++ stripTags t) ∧
    ('>' ∉ mid.data → stripTags (s ++ "<" ++ mid ++ ">" ++ t) = stripTags s ++ stripTags t) := by
  refine ⟨stripTagsCh_no_brackets false s.data, ?_, ?_, ?_⟩
  · intro ht
    show String.mk (stripTagsCh false ((s.data ++ ['<']) ++ t.data)) = _
    rw [stripTagsCh_append, tagState_append_lt, stripTagsCh_inTag_drops t.data ht]
    show String.mk (stripTagsCh false (s.data ++ ['<']) ++ []) = _
    rw [stripTagsCh_append]
    simp [stripTags, stripTagsCh]
  · rintro ⟨h1, h2⟩
    show String.mk (stripTagsCh false ((s.data ++ ['>']) ++ t.data)) = _
    have hid := stripTagsCh_id_of_no_brackets s.data h1 h2
    have hst : tagState false (s.data ++ ['>']) = false := by
      rw [tagState_append, hid.2]; rfl
    rw [stripTagsCh_append, hst, stripTagsCh_append, hid.1]
    show String.mk ((s.data ++ stripTagsCh (tagState false s.data) ['>']) ++ _) = _
    rw [hid.2]
    show String.mk ((s.data ++ []) ++ stripTagsCh false t.data) = _
    simp [stripTags]
    rfl
  · intro hm
    show String.mk (stripTagsCh false ((((s.data ++ ['<']) ++ mid.data) ++ ['>']) ++ t.data)) = _
    have h1 : tagState false (((s.data ++ ['<']) ++ mid.data) ++ ['>']) = false := by
      rw [tagState_append]; rfl
    rw [stripTagsCh_append, h1]
    rw [stripTagsCh_append, stripTagsCh_append, tagState_append_lt,
        stripTagsCh_inTag_drops mid.data hm, stripTagsCh_append]
    show String.mk (((stripTagsCh false s.data ++ stripTagsCh (tagState false s.data) ['<'])
      ++ []) ++ stripTagsCh true ['>'] ++ stripTagsCh false t.data) = _
    have hlt : ∀ b, stripTagsCh b ['<'] = [] := by intro b; rfl
    have hgt : stripTagsCh true ['>'] = [] := rfl
    rw [hlt, hgt]
    simp [stripTags]
    rfl

/-- Witness for C10 at concrete inputs: an unterminated tag is dropped,
and a stray closing bracket disappears while the surrounding text stays. -/
theorem c10_striptags_properties_witness :
    stripTags ("ab" ++ "<" ++ "tag junk") = stripTags "ab" ∧
    stripTags ("ab" ++ ">" ++ "cd") = "ab" ++ stripTags "cd" := by
  refine ⟨?_, ?_⟩
  · exact (c10_striptags_properties "ab" "tag junk" "x").2.1 (by decide)
  · exact (c10_striptags_properties "ab" "cd" "x").2.2.1 (by decide)

theorem clampWidth_idem (w : ℤ) : clampWidth (clampWidth w) = clampWidth w := by
  simp only [clampWidth]; split_ifs <;> omega

theorem clampLines_idem (l : ℤ) : clampLines (clampLines l) = clampLines l := by
  simp only [clampLines]; split_ifs <;> omega

/-- Amended C4: the geometry derivation floors at 40 columns and 10 lines
(not 20 and 5); independently, the paginator clamps any caller-supplied
geometry to at least 20 columns and 5 lines. -/
theorem c4_geometry_amended (w h s : ℤ) (cw : Char → ℕ) (book : Book) :
    computePageLayout w h s =
      (max 40 ((if 0 < w then w - 4 else 80) - s * 4),
       max 10 ((if 0 < h then h - 8 else 25) - s * 2)) ∧
    20 ≤ clampWidth w ∧ 5 ≤ clampLines h ∧
    buildBookPagesForSize cw book w h =
      buildBookPagesForSize cw book (clampWidth w) (clampLines h) := by
  refine ⟨?_, ?_, ?_, ?_⟩
  · simp only [computePageLayout, pageLineWidth, pageLineCount, Prod.mk.injEq]
    constructor <;> split_ifs <;> omega
  · simp only [clampWidth]; split_ifs <;> omega
  · simp only [clampLines]; split_ifs <;> omega
  · simp only [buildBookPagesForSize, clampWidth_idem, clampLines_idem]

theorem buildLoop_fst_length (cw : Char → ℕ) (w ln : ℤ) :
    ∀ (chs : List Chapter) (pages : List String) (acc : List Chapter),
      (buildLoop cw w ln chs pages acc).1.length =
        pages.length + (chs.map (chapterPageCount cw w ln)).sum := by
  intro chs
  induction chs with
  | nil => intro pages acc; simp [buildLoop]
  | cons ch rest ih =>
    intro pages acc
    simp only [buildLoop, ih, List.map_cons, List.sum_cons, List.length_append]
    simp [chapterPageCount]
    omega

theorem buildLoop_snd_spec (cw : Char → ℕ) (w ln : ℤ) :
    ∀ (chs : List Chapter) (pages : List String) (acc : List Chapter),
      (buildLoop cw w ln chs pages acc).2 =
        acc ++ assignStartPages cw w ln chs pages.length := by
  intro chs
  induction chs with
  | nil => intro pages acc; simp [buildLoop, assignStartPages]
  | cons ch rest ih =>
    intro pages acc
    simp [buildLoop, ih, assignStartPages, chapterPageCount, List.append_assoc]

theorem assignStartPages_length (cw : Char → ℕ) (w ln : ℤ) :
    ∀ (chs : List Chapter) (k : ℕ),
      (assignStartPages cw w ln chs k).length = chs.length := by
  intro chs
  induction chs with
  | nil => intro k; rfl
  | cons ch rest ih => intro k; simp [assignStartPages, ih]

theorem assignStartPages_getD (cw : Char → ℕ) (w ln : ℤ) :
    ∀ (chs : List Chapter) (k i : ℕ), i < chs.length →
      (assignStartPages cw w ln chs k).getD i ⟨"", "", 0⟩ =
        { chs.getD i ⟨"", "", 0⟩ with
            startPage := k + ((chs.take i).map (chapterPageCount cw w ln)).sum } := by
  intro chs
  induction chs with
  | nil => intro k i h; simp at h
  | cons ch rest ih =>
    intro k i h
    cases i with
    | zero => simp [assignStartPages]
    | succ i =>
      have hi : i < rest.length := by simpa using h
      simp only [assignStartPages, List.getD_cons_succ, List.take_succ_cons,
        List.map_cons, List.sum_cons, ih (k + chapterPageCount cw w ln ch) i hi]
      rw [Nat.add_assoc]

theorem take_sum_mono (xs : List ℕ) (i j : ℕ) (hij : i ≤ j) :
    (xs.take i).sum ≤ (xs.take j).sum := by
  have h1 : xs.take i = (xs.take j).take i := by
    rw [List.take_take, min_eq_left hij]
  calc (xs.take i).sum = ((xs.take j).take i).sum := by rw [h1]
    _ ≤ ((xs.take j).take i).sum + ((xs.take j).drop i).sum := Nat.le_add_right _ _
    _ = (xs.take j).sum := by rw [← List.sum_append, List.take_append_drop]

/-- C2: after `buildBookPagesForSize`, the total page count is the sum of
the chapters' page counts, each chapter's `StartPage` is the sum of the
page counts of the chapters before it, and `StartPage` is monotone. -/
theorem c2_pagination_conservation (cw : Char → ℕ) (book : Book) (width lines : ℤ) :
    (buildBookPagesForSize cw book width lines).1.length =
      (book.chapters.map (chapterPageCount cw (clampWidth width) (clampLines lines))).sum ∧
    (buildBookPagesForSize cw book width lines).2.length = book.chapters.length ∧
    (∀ i, i < book.chapters.length →
      ((buildBookPagesForSize cw book width lines).2.getD i ⟨"", "", 0⟩).startPage =
        ((book.chapters.take i).map
          (chapterPageCount cw (clampWidth width) (clampLines lines))).sum) ∧
    (∀ i j, i ≤ j → j < book.chapters.length →
      ((buildBookPagesForSize cw book width lines).2.getD i ⟨"", "", 0⟩).startPage ≤
        ((buildBookPagesForSize cw book width lines).2.getD j ⟨"", "", 0⟩).startPage) := by
  have hfst := buildLoop_fst_length cw (clampWidth width) (clampLines lines)
    book.chapters [] []
  have hsnd := buildLoop_snd_spec cw (clampWidth width) (clampLines lines)
    book.chapters [] []
  have hstart : ∀ i, i < book.chapters.length →
      ((buildBookPagesForSize cw book width lines).2.getD i ⟨"", "", 0⟩).startPage =
        ((book.chapters.take i).map
          (chapterPageCount cw (clampWidth width) (clampLines lines))).sum := by
    intro i hi
    show ((buildLoop cw _ _ book.chapters [] []).2.getD i _).startPage = _
    rw [hsnd]
    simp only [List.nil_append, List.length_nil]
    rw [assignStartPages_getD cw (clampWidth width) (clampLines lines)
      book.chapters 0 i hi]
    simp
  refine ⟨?_, ?_, hstart, ?_⟩
  · simpa using hfst
  · show (buildLoop cw _ _ book.chapters [] []).2.length = _
    rw [hsnd]
    simp [assignStartPages_length]
  · intro i j hij hj
    rw [hstart i (lt_of_le_of_lt hij hj), hstart j hj,
      List.map_take, List.map_take]
    exact take_sum_mono _ i j hij

/-- Witness for C2 at a concrete two-chapter book. -/
theorem c2_pagination_conservation_witness :
    ((buildBookPagesForSize runewidthModel demoBook 80 25).2.getD 1 ⟨"", "", 0⟩).startPage =
      ((demoBook.chapters.take 1).map
        (chapterPageCount runewidthModel (clampWidth 80) (clampLines 25))).sum ∧
    ((buildBookPagesForSize runewidthModel demoBook 80 25).2.getD 0 ⟨"", "", 0⟩).startPage ≤
      ((buildBookPagesForSize runewidthModel demoBook 80 25).2.getD 1 ⟨"", "", 0⟩).startPage := by
  have h := c2_pagination_conservation runewidthModel demoBook 80 25
  exact ⟨h.2.2.1 1 (by decide), h.2.2.2 0 1 (by decide) (by decide)⟩

theorem chunksAux_nil (n fuel : ℕ) : chunksAux n fuel [] = [] := by
  cases fuel <;> rfl

theorem chunksAux_congr (n : ℕ) (hn : 1 ≤ n) :
    ∀ fuel₁ fuel₂ (l : List String), l.length ≤ fuel₁ → l.length ≤ fuel₂ →
      chunksAux n fuel₁ l = chunksAux n fuel₂ l := by
  intro fuel₁
  induction fuel₁ with
  | zero =>
    intro fuel₂ l h1 _
    have : l = [] := List.eq_nil_of_length_eq_zero (Nat.le_zero.mp h1)
    subst this
    rw [chunksAux_nil, chunksAux_nil]
  | succ f ih =>
    intro fuel₂ l h1 h2
    cases l with
    | nil => rw [chunksAux_nil, chunksAux_nil]
    | cons x xs =>
      cases fuel₂ with
      | zero => simp at h2
      | succ f2 =>
        show (x :: xs).take n :: chunksAux n f ((x :: xs).drop n) =
          (x :: xs).take n :: chunksAux n f2 ((x :: xs).drop n)
        have hd : ((x :: xs).drop n).length ≤ f := by
          simp only [List.length_drop, List.length_cons]
          simp only [List.length_cons] at h1
          omega
        have hd2 : ((x :: xs).drop n).length ≤ f2 := by
          simp only [List.length_drop, List.length_cons]
          simp only [List.length_cons] at h2
          omega
        rw [ih f2 _ hd hd2]

theorem chunksOf_cons_eq (n : ℕ) (hn : 1 ≤ n) (l : List String) (hl : l ≠ []) :
    chunksOf n l = l.take n :: chunksOf n (l.drop n) := by
  cases l with
  | nil => exact absurd rfl hl
  | cons x xs =>
    show chunksAux n (xs.length + 1) (x :: xs) = _
    show (x :: xs).take n :: chunksAux n xs.length ((x :: xs).drop n) = _
    rw [chunksAux_congr n hn xs.length ((x :: xs).drop n).length ((x :: xs).drop n)
      (by simp only [List.length_drop, List.length_cons]; omega) le_rfl]
    rfl

theorem chunksAux_mem (n : ℕ) (hn : 1 ≤ n) :
    ∀ (fuel : ℕ) (l : List String), l.length ≤ fuel →
      ∀ c ∈ chunksAux n fuel l, c.length ≤ n ∧ c ≠ [] ∧ ∀ x ∈ c, x ∈ l := by
  intro fuel
  induction fuel with
  | zero =>
    intro l h1 c hc
    have : l = [] := List.eq_nil_of_length_eq_zero (Nat.le_zero.mp h1)
    subst this
    rw [chunksAux_nil] at hc
    simp at hc
  | succ f ih =>
    intro l h1 c hc
    cases l with
    | nil => rw [chunksAux_nil] at hc; simp at hc
    | cons x xs =>
      have hstep : chunksAux n (f + 1) (x :: xs) =
          (x :: xs).take n :: chunksAux n f ((x :: xs).drop n) := rfl
      rw [hstep] at hc
      rcases List.mem_cons.mp hc with h | h
      · subst h
        refine ⟨by simp, ?_, ?_⟩
        · cases n with
          | zero => omega
          | succ m => simp [List.take_cons]
        · intro y hy
          exact List.mem_of_mem_take hy
      · have hd : ((x :: xs).drop n).length ≤ f := by
          simp only [List.length_drop, List.length_cons]
          simp only [List.length_cons] at h1
          omega
        have := ih _ hd c h
        exact ⟨this.1, this.2.1, fun y hy => List.mem_of_mem_drop (this.2.2 y hy)⟩

theorem chunksAux_dropLast (n : ℕ) (hn : 1 ≤ n) :
    ∀ (fuel : ℕ) (l : List String), l.length ≤ fuel →
      ∀ c ∈ (chunksAux n fuel l).dropLast, c.length = n := by
  intro fuel
  induction fuel with
  | zero =>
    intro l h1 c hc
    have : l = [] := List.eq_nil_of_length_eq_zero (Nat.le_zero.mp h1)
    subst this
    rw [chunksAux_nil] at hc
    simp at hc
  | succ f ih =>
    intro l h1 c hc
    cases l with
    | nil => rw [chunksAux_nil] at hc; simp at hc
    | cons x xs =>
      have hstep : chunksAux n (f + 1) (x :: xs) =
          (x :: xs).take n :: chunksAux n f ((x :: xs).drop n) := rfl
      rw [hstep] at hc
      by_cases hrest : chunksAux n f ((x :: xs).drop n) = []
      · rw [hrest] at hc
        simp at hc
      · rw [List.dropLast_cons_of_ne_nil hrest] at hc
        have hdne : (x :: xs).drop n ≠ [] := by
          intro hd
          rw [hd, chunksAux_nil] at hrest
          exact hrest rfl
        rcases List.mem_cons.mp hc with h | h
        · subst h
          have hlen : n < (x :: xs).length := by
            by_contra hle
            push_neg at hle
            exact hdne (List.drop_eq_nil_of_le hle)
          simpa using List.length_take_of_le (Nat.le_of_lt hlen)
        · have hd : ((x :: xs).drop n).length ≤ f := by
            simp only [List.length_drop, List.length_cons]
            simp only [List.length_cons] at h1
            omega
          exact ih _ hd c h

/-- Counterexample for C4: the claim says the derivation floors at
`line_width = 20` and `lines_per_page = 5`, so at viewport (10, 10) with
scale 0 it would yield `(max 20 (10-4), max 5 (10-8)) = (20, 5)`; the code
floors at 40 and 10 and yields `(40, 10)` instead. -/
theorem c4_floor_counterexample :
    computePageLayout 10 10 0 = (40, 10) ∧
    computePageLayout 10 10 0 ≠ (max 20 (10 - 4 - 4 * 0), max 5 (10 - 8 - 2 * 0)) := by
  constructor
  · rfl
  · intro h
    have := congrArg Prod.fst h
    simp [computePageLayout] at this

theorem splitNlCh_ne_nil : ∀ l : List Char, splitNlCh l ≠ [] := by
  intro l
  induction l with
  | nil => simp [splitNlCh]
  | cons c cs ih =>
    by_cases h : c = '\n'
    · simp [splitNlCh, h]
    · simp only [splitNlCh, if_neg h]
      cases hs : splitNlCh cs with
      | nil => exact absurd hs ih
      | cons a t => simp [List.modifyHead]

theorem splitNlCh_no_nl : ∀ (l : List Char) (x : List Char), x ∈ splitNlCh l → '\n' ∉ x := by
  intro l
  induction l with
  | nil =>
    intro x hx
    simp only [splitNlCh, List.mem_singleton] at hx
    simp [hx]
  | cons c cs ih =>
    intro x hx
    by_cases h : c = '\n'
    · simp only [splitNlCh, if_pos h, List.mem_cons] at hx
      rcases hx with hx | hx
      · simp [hx]
      · exact ih x hx
    · simp only [splitNlCh, if_neg h] at hx
      cases hs : splitNlCh cs with
      | nil => exact absurd hs (splitNlCh_ne_nil cs)
      | cons a t =>
        rw [hs] at hx
        simp only [List.modifyHead, List.mem_cons] at hx
        rcases hx with hx | hx
        · subst hx
          intro hmem
          rcases List.mem_cons.mp hmem with hc | hc
          · exact h hc.symm
          · exact ih a (hs ▸ List.mem_cons_self a t) hc
        · exact ih x (hs ▸ List.mem_cons_of_mem a hx)

theorem splitNlCh_length : ∀ l : List Char, (splitNlCh l).length = l.count '\n' + 1 := by
  intro l
  induction l with
  | nil => simp [splitNlCh]
  | cons c cs ih =>
    by_cases h : c = '\n'
    · simp [splitNlCh, h, ih, List.count_cons]
    · simp only [splitNlCh, if_neg h]
      cases hs : splitNlCh cs with
      | nil => exact absurd hs (splitNlCh_ne_nil cs)
      | cons a t =>
        rw [hs] at ih
        simp only [List.modifyHead, List.length_cons, List.count_cons]
        simp only [List.length_cons] at ih
        have hcc : (c == '\n') = false := by simp [h]
        simp [hcc, ih]

theorem joinNl_count : ∀ ls : List (List Char), (∀ l ∈ ls, '\n' ∉ l) →
    (joinNl ls).count '\n' = ls.length - 1 := by
  intro ls
  induction ls with
  | nil => intro _; simp [joinNl]
  | cons l rest ih =>
    intro h
    cases rest with
    | nil =>
      show l.count '\n' = 0
      exact List.count_eq_zero.mpr (h l (List.mem_cons_self l []))
    | cons l2 rest2 =>
      show (l ++ '\n' :: joinNl (l2 :: rest2)).count '\n' = (l2 :: rest2).length + 1 - 1
      rw [List.count_append, List.count_cons]
      have h1 : l.count '\n' = 0 :=
        List.count_eq_zero.mpr (h l (List.mem_cons_self l (l2 :: rest2)))
      have h2 := ih (fun x hx => h x (List.mem_cons_of_mem l hx))
      simp [h1, h2]

theorem count_dropWhile_le (p : Char → Bool) (a : Char) :
    ∀ l : List Char, (l.dropWhile p).count a ≤ l.count a := by
  intro l
  induction l with
  | nil => simp
  | cons c cs ih =>
    by_cases h : p c
    · rw [List.dropWhile_cons_of_pos h]
      exact le_trans ih (by simp [List.count_cons])
    · rw [List.dropWhile_cons_of_neg (by simp [h])]

theorem count_trim_le (a : Char) (l : List Char) :
    (goTrimSpaceCh l).count a ≤ l.count a := by
  unfold goTrimSpaceCh
  rw [List.count_reverse]
  calc ((l.dropWhile goIsSpace).reverse.dropWhile goIsSpace).count a
      ≤ (l.dropWhile goIsSpace).reverse.count a := count_dropWhile_le _ _ _
    _ = (l.dropWhile goIsSpace).count a := List.count_reverse _ _
    _ ≤ l.count a := count_dropWhile_le _ _ _

theorem dropWhile_head?_false (p : Char → Bool) :
    ∀ (l : List Char) (c : Char), (l.dropWhile p).head? = some c → p c = false := by
  intro l
  induction l with
  | nil => intro c h; simp at h
  | cons x xs ih =>
    intro c h
    by_cases hx : p x
    · rw [List.dropWhile_cons_of_pos hx] at h
      exact ih c h
    · rw [List.dropWhile_cons_of_neg (by simp [hx])] at h
      simp only [List.head?_cons, Option.some.injEq] at h
      subst h
      simpa using hx

theorem dropWhile_dropWhile (p : Char → Bool) :
    ∀ l : List Char, (l.dropWhile p).dropWhile p = l.dropWhile p := by
  intro l
  induction l with
  | nil => rfl
  | cons x xs ih =>
    by_cases hx : p x
    · rw [List.dropWhile_cons_of_pos hx, ih]
    · rw [List.dropWhile_cons_of_neg (by simp [hx]),
        List.dropWhile_cons_of_neg (by simp [hx])]

theorem dropWhile_getLast? (p : Char → Bool) :
    ∀ l : List Char, l.dropWhile p ≠ [] → (l.dropWhile p).getLast? = l.getLast? := by
  intro l
  induction l with
  | nil => intro h; simp at h
  | cons x xs ih =>
    intro h
    by_cases hx : p x
    · rw [List.dropWhile_cons_of_pos hx] at h ⊢
      have hxs : xs ≠ [] := by
        intro he
        rw [he] at h
        exact h rfl
      rw [ih h]
      cases xs with
      | nil => exact absurd rfl hxs
      | cons y ys => rw [List.getLast?_cons_cons]
    · rw [List.dropWhile_cons_of_neg (by simp [hx])]

theorem dropWhile_eq_self_of_head (p : Char → Bool) (l : List Char)
    (h : ∀ c, l.head? = some c → p c = false) : l.dropWhile p = l := by
  cases l with
  | nil => rfl
  | cons x xs =>
    have := h x rfl
    rw [List.dropWhile_cons_of_neg (by simp [this])]

theorem goTrimSpaceCh_idem (l : List Char) :
    goTrimSpaceCh (goTrimSpaceCh l) = goTrimSpaceCh l := by
  have step1 : (goTrimSpaceCh l).dropWhile goIsSpace = goTrimSpaceCh l := by
    apply dropWhile_eq_self_of_head
    intro c hc
    unfold goTrimSpaceCh at hc
    rw [List.head?_reverse] at hc
    have hBne : (l.dropWhile goIsSpace).reverse.dropWhile goIsSpace ≠ [] := by
      intro he
      rw [he] at hc
      simp at hc
    rw [dropWhile_getLast? goIsSpace _ hBne, List.getLast?_reverse] at hc
    exact dropWhile_head?_false goIsSpace l c hc
  show (((goTrimSpaceCh l).dropWhile goIsSpace).reverse.dropWhile goIsSpace).reverse
      = goTrimSpaceCh l
  rw [step1]
  unfold goTrimSpaceCh
  rw [List.reverse_reverse, dropWhile_dropWhile]

theorem goTrimSpace_idem (s : String) :
    goTrimSpace (goTrimSpace s) = goTrimSpace s :=
  congrArg String.mk (goTrimSpaceCh_idem s.data)

theorem goLines_length (s : String) :
    (goLines s).length = s.data.count '\n' + 1 := by
  show ((splitNlCh s.data).map String.mk).length = _
  rw [List.length_map, splitNlCh_length]

/-- C8: with at least one line per page, `paginate` returns nothing on
whitespace-only text; every emitted page is trimmed and has at most
`linesPerPage` display lines; and the underlying grouping slices the
wrapped lines into chunks of exactly `linesPerPage` lines apart from the
final chunk, every chunk being nonempty and no longer than a page. -/
theorem c8_paginate_shape (cw : Char → ℕ) (text : String) (n w : ℤ) (hn : 1 ≤ n) :
    (goTrimSpace text = "" → paginate cw text n w = []) ∧
    (∀ p ∈ paginate cw text n w,
      (goLines p).length ≤ n.toNat ∧ goTrimSpace p = p) ∧
    (∀ c ∈ (chunksOf n.toNat (goLines (wrapText cw text w))).dropLast,
      c.length = n.toNat) ∧
    (∀ c ∈ chunksOf n.toNat (goLines (wrapText cw text w)),
      c.length ≤ n.toNat ∧ c ≠ []) := by
  have hn' : 1 ≤ n.toNat := by omega
  have hmem := chunksAux_mem n.toNat hn' (goLines (wrapText cw text w)).length
    (goLines (wrapText cw text w)) le_rfl
  refine ⟨fun h => by simp [paginate, h], ?_, ?_, ?_⟩
  · intro p hp
    by_cases h : goTrimSpace text = ""
    · simp [paginate, h] at hp
    · simp only [paginate, if_neg h, List.mem_map] at hp
      obtain ⟨c, hc, hpc⟩ := hp
      have hcprops := hmem c hc
      constructor
      · subst hpc
        rw [goLines_length]
        show (goTrimSpaceCh (joinNl (c.map String.data))).count '\n' + 1 ≤ n.toNat
        have hnl : ∀ ld ∈ c.map String.data, '\n' ∉ ld := by
          intro ld hld
          rw [List.mem_map] at hld
          obtain ⟨x, hx, hxd⟩ := hld
          have hxl := hcprops.2.2 x hx
          simp only [goLines, List.mem_map] at hxl
          obtain ⟨lx, hlx, hlxmk⟩ := hxl
          subst hxd
          rw [← hlxmk]
          exact splitNlCh_no_nl _ lx hlx
        have hjc := joinNl_count (c.map String.data) hnl
        have := count_trim_le '\n' (joinNl (c.map String.data))
        rw [hjc, List.length_map] at this
        have hclen := hcprops.1
        have hcne : c.length ≥ 1 := List.length_pos.mpr hcprops.2.1
        omega
      · subst hpc
        exact goTrimSpace_idem _
  · intro c hc
    exact chunksAux_dropLast n.toNat hn' _ _ le_rfl c hc
  · intro c hc
    exact ⟨(hmem c hc).1, (hmem c hc).2.1⟩

/-- Witness for C8 at a concrete chapter text and geometry. -/
theorem c8_paginate_shape_witness :
    paginate runewidthModel "   " 5 40 = [] ∧
    (∀ p ∈ paginate runewidthModel "hello world again" 2 5,
      (goLines p).length ≤ (2 : ℤ).toNat ∧ goTrimSpace p = p) := by
  constructor
  · exact (c8_paginate_shape runewidthModel "   " 5 40 (by decide)).1 (by decide)
  · intro p hp
    exact (c8_paginate_shape runewidthModel "hello world again" 2 5 (by decide)).2.1 p hp

theorem fieldsGo_ne_nil : ∀ (l acc : List Char), ∀ w ∈ fieldsGo l acc, w ≠ [] := by
  intro l
  induction l with
  | nil =>
    intro acc w hw
    by_cases h : acc.isEmpty
    · simp [fieldsGo, h] at hw
    · simp only [fieldsGo, h, Bool.false_eq_true, if_false, List.mem_singleton] at hw
      subst hw
      simpa using (by simpa [List.isEmpty_iff] using h : acc ≠ [])
  | cons c cs ih =>
    intro acc w hw
    by_cases hsp : goIsSpace c
    · by_cases h : acc.isEmpty
      · simp only [fieldsGo, hsp, h, if_true] at hw
        exact ih [] w hw
      · simp only [fieldsGo, hsp, h, Bool.false_eq_true, if_false, if_true,
          List.mem_cons] at hw
        rcases hw with hw | hw
        · subst hw
          simpa using (by simpa [List.isEmpty_iff] using h : acc ≠ [])
        · exact ih [] w hw
    · simp only [fieldsGo, hsp, Bool.false_eq_true, if_false] at hw
      exact ih (c :: acc) w hw

theorem goFields_ne_empty (s : String) : ∀ w ∈ goFields s, w ≠ "" := by
  intro w hw
  simp only [goFields, List.mem_map] at hw
  obtain ⟨lw, hlw, hmk⟩ := hw
  subst hmk
  intro h
  exact fieldsGo_ne_nil s.data [] lw hlw (congrArg String.data h)

theorem strWidth_append (cw : Char → ℕ) (s t : String) :
    strWidth cw (s ++ t) = strWidth cw s + strWidth cw t := by
  simp [strWidth, strData_append]

theorem strWidth_empty (cw : Char → ℕ) : strWidth cw "" = 0 := rfl

theorem append_ne_empty_of_right (s t : String) (ht : t ≠ "") : s ++ t ≠ "" := by
  intro h
  apply ht
  have h2 : s.data ++ t.data = [] := congrArg String.data h
  exact String.ext (List.append_eq_nil.mp h2).2

theorem wrapAux_sound (cw : Char → ℕ) (width : ℤ) (words : List String)
    (hsp : cw ' ' = 1) (hword : ∀ w ∈ words, w ≠ "") :
    ∀ (ws : List String) (cur : String) (lineLen : ℤ),
      (∀ w ∈ ws, w ∈ words) →
      lineLen = (strWidth cw cur : ℤ) →
      (cur = "" → ws ≠ []) →
      (cur ≠ "" → (strWidth cw cur : ℤ) ≤ width ∨
        ∃ z w, cur = z ++ w ∧ strWidth cw z = 0 ∧ w ∈ words) →
      ∀ l ∈ wrapAux cw width ws cur lineLen,
        (strWidth cw l : ℤ) ≤ width ∨
        ∃ z w, l = z ++ w ∧ strWidth cw z = 0 ∧ w ∈ words ∧
          (width : ℤ) < (strWidth cw w : ℤ) := by
  intro ws
  induction ws with
  | nil =>
    intro cur lineLen _ _ hcur hP l hl
    simp only [wrapAux, List.mem_singleton] at hl
    subst hl
    have hne : l ≠ "" := fun h => hcur h rfl
    rcases hP hne with h | ⟨z, w, hzw, hz0, hwmem⟩
    · exact Or.inl h
    · by_cases hle : (strWidth cw l : ℤ) ≤ width
      · exact Or.inl hle
      · refine Or.inr ⟨z, w, hzw, hz0, hwmem, ?_⟩
        push_neg at hle
        calc (width : ℤ) < (strWidth cw l : ℤ) := hle
          _ = (strWidth cw w : ℤ) := by rw [hzw, strWidth_append, hz0]; simp
  | cons w ws ih =>
    intro cur lineLen hsub hlen hcur hP l hl
    have hwmem : w ∈ words := hsub w (List.mem_cons_self w ws)
    have hwne : w ≠ "" := hword w hwmem
    have hsub' : ∀ x ∈ ws, x ∈ words := fun x hx => hsub x (List.mem_cons_of_mem w hx)
    rw [wrapAux] at hl
    by_cases h0 : lineLen = 0
    · rw [if_pos h0] at hl
      have hcur0 : strWidth cw cur = 0 := by
        have h00 : (strWidth cw cur : ℤ) = 0 := by rw [← hlen]; exact h0
        exact_mod_cast h00
      refine ih (cur ++ w) _ hsub' ?_ ?_ ?_ l hl
      · rw [strWidth_append, hcur0]; simp
      · intro he
        exact absurd he (append_ne_empty_of_right cur w hwne)
      · intro _
        exact Or.inr ⟨cur, w, rfl, hcur0, hwmem⟩
    · rw [if_neg h0] at hl
      have hcurne : cur ≠ "" := by
        intro he
        apply h0
        rw [hlen, he, strWidth_empty]
        rfl
      by_cases hov : lineLen + 1 + (strWidth cw w : ℤ) > width
      · rw [if_pos hov] at hl
        rcases List.mem_cons.mp hl with hlc | hl
        · subst hlc
          rcases hP hcurne with h | ⟨z, w', hzw, hz0, hwmem'⟩
          · exact Or.inl h
          · by_cases hle : (strWidth cw l : ℤ) ≤ width
            · exact Or.inl hle
            · refine Or.inr ⟨z, w', hzw, hz0, hwmem', ?_⟩
              push_neg at hle
              calc (width : ℤ) < (strWidth cw l : ℤ) := hle
                _ = (strWidth cw w' : ℤ) := by rw [hzw, strWidth_append, hz0]; simp
        · refine ih w _ hsub' rfl (fun he => absurd he hwne) ?_ l hl
          intro _
          refine Or.inr ⟨"", w, ?_, strWidth_empty cw, hwmem⟩
          apply String.ext
          simp [strData_append]
      · rw [if_neg hov] at hl
        push_neg at hov
        refine ih (cur ++ " " ++ w) _ hsub' ?_ ?_ ?_ l hl
        · rw [strWidth_append, strWidth_append]
          have hone : strWidth cw " " = 1 := by
            simp [strWidth, hsp]
          rw [hone, hlen]
          push_cast
          ring
        · intro he
          exact absurd he (append_ne_empty_of_right _ w hwne)
        · intro _
          left
          have hone : strWidth cw " " = 1 := by simp [strWidth, hsp]
          rw [strWidth_append, strWidth_append, hone]
          push_cast
          linarith [hlen ▸ hov]

/-- Amended C3: every line emitted by `wrapParagraph` either fits in `width`
display cells, or ends with a complete input word that is itself wider than
`width` — that word is never split, and the only other content such a line
can carry is earlier words of display width zero, appended with no
separating space.  (When every word has positive display width the
overflowing line is exactly one word, as the original claim states.) -/
theorem c3_wrap_bound_amended (cw : Char → ℕ) (text : String) (width : ℤ)
    (hsp : cw ' ' = 1) :
    ∀ l ∈ wrapParagraphLines cw text width,
      (strWidth cw l : ℤ) ≤ width ∨
      ∃ z w, l = z ++ w ∧ strWidth cw z = 0 ∧ w ∈ goFields text ∧
        (width : ℤ) < (strWidth cw w : ℤ) := by
  intro l hl
  unfold wrapParagraphLines at hl
  rcases hF : goFields text with _ | ⟨w, ws⟩
  · rw [hF] at hl; simp at hl
  · rw [hF] at hl
    refine wrapAux_sound cw width (w :: ws) hsp ?_ (w :: ws) "" 0
      (fun x hx => hx) rfl (fun _ => by simp) (fun h => absurd rfl h) l hl
    rw [← hF]
    exact goFields_ne_empty text

/-- Witness for C3 at a fitting two-word line. -/
theorem c3_wrap_bound_amended_witness :
    (strWidth (fun _ => 1) "ab cd" : ℤ) ≤ 5 ∨
    ∃ z w, "ab cd" = z ++ w ∧ strWidth (fun _ => 1) z = 0 ∧
      w ∈ goFields "ab cd" ∧ (5 : ℤ) < (strWidth (fun _ => 1) w : ℤ) :=
  c3_wrap_bound_amended (fun _ => 1) "ab cd" 5 rfl "ab cd" (by decide)

/-- Counterexample for C3 as stated: with the combining acute accent
(display width 0 in `go-runewidth`) as its own word, the wrapper appends the
following word to the same line with no separator; the emitted line
overflows `width` yet is not equal to any single input word, so the
"a single word alone on its own overflowing line" exception does not cover
it. -/
theorem c3_zero_width_counterexample :
    wrapParagraphLines runewidthModel "́ abc" 2 = ["́abc"] ∧
    (2 : ℤ) < (strWidth runewidthModel "́abc" : ℤ) ∧
    ∀ w ∈ goFields "́ abc", "́abc" ≠ w := by
  refine ⟨by decide, by decide, by decide⟩

theorem bsMarkerAt_none_of_no_backslash (pat : List Char) (l : List Char)
    (h : '\\' ∉ l) : bsMarkerAt pat l = none := by
  unfold bsMarkerAt
  have hk : l.takeWhile (fun c => c == '\\') = [] := by
    cases hl : l with
    | nil => rfl
    | cons c rest =>
      have hc : ¬ (c == '\\') = true := by
        simp only [beq_iff_eq]
        intro hc
        exact h (hl ▸ (hc ▸ List.mem_cons_self c rest))
      simp [List.takeWhile, hc]
  rw [hk]
  rfl

theorem scanBsMarker_none_of_no_backslash (pat : List Char) :
    ∀ (fuel p : ℕ) (l : List Char), '\\' ∉ l → scanBsMarker pat fuel p l = none := by
  intro fuel
  induction fuel with
  | zero => intro p l _; rfl
  | succ f ih =>
    intro p l h
    cases l with
    | nil => rfl
    | cons c rest =>
      show (match bsMarkerAt pat (c :: rest) with
        | some len => some (p, p + len)
        | none => scanBsMarker pat f (p + 1) rest) = none
      rw [bsMarkerAt_none_of_no_backslash pat (c :: rest) h]
      exact ih (p + 1) rest (fun hm => h (List.mem_cons_of_mem c hm))

set_option maxRecDepth 40000 in
/-- C1 (code bug): on the canonical marker frame — prefix, start marker,
body, end marker, suffix, no backslash anywhere — the marker scans find
nothing (the mis-escaped regexes demand a literal backslash), so the
whole document passes through unchanged instead of being reduced to the
trimmed body. -/
theorem c1_boilerplate_bug :
    scanBsMarker startMarkerLit c1doc.data.length 0 c1doc.data = none ∧
    scanBsMarker endMarkerLit c1doc.data.length 0 c1doc.data = none ∧
    stripGutenbergBoilerplate c1doc = c1doc ∧
    c1doc ≠ "Body text here." := by
  refine ⟨?_, ?_, by decide, by decide⟩
  · exact scanBsMarker_none_of_no_backslash startMarkerLit _ 0 _ (by decide)
  · exact scanBsMarker_none_of_no_backslash endMarkerLit _ 0 _ (by decide)

/-- C9: when segmentation finds no headings, or at most one chapter
survives the empty-text filter, the loaded book consists of exactly one
chapter holding the whole document's extracted text with start page 0 and
the document title; a missing title element falls back to "Untitled". -/
theorem c9_single_chapter_fallback (cw : Char → ℕ) (data : String) (width lines : ℤ) :
    ((findHeadings data.data = [] ∨ (chaptersKept data).length ≤ 1) →
      (loadBookFromHTML cw data width lines).chapters =
        [{ title := if extractTitle data = "" then "Untitled" else extractTitle data,
           text := cleanHTMLToText data, startPage := 0 }]) ∧
    (extractTitle data = "" → (loadBookFromHTML cw data width lines).title = "Untitled") := by
  constructor
  · intro h
    have hex : extractChaptersFromHTML data = [] := by
      unfold extractChaptersFromHTML
      rcases h with h | h
      · rw [if_pos h]
      · by_cases hh : findHeadings data.data = []
        · rw [if_pos hh]
        · rw [if_neg hh, if_pos h]
    show (let title0 := extractTitle data
      let title := if title0 = "" then "Untitled" else title0
      let chapters0 := extractChaptersFromHTML data
      let chapters1 :=
        if chapters0 = [] then
          [{ title := title, text := cleanHTMLToText data, startPage := 0 }]
        else chapters0
      let r := buildBookPagesForSize cw
        { title := title, chapters := chapters1, pages := [] } width lines
      Book.mk title r.2 r.1).chapters = _
    simp only [hex, if_pos rfl]
    show (buildBookPagesForSize cw _ width lines).2 = _
    simp [buildBookPagesForSize, buildLoop]
  · intro h
    simp [loadBookFromHTML, h]

/-- Witness for C9 on a concrete headingless, titleless document. -/
theorem c9_single_chapter_fallback_witness :
    (loadBookFromHTML runewidthModel c9doc 80 25).chapters =
      [{ title := "Untitled", text := cleanHTMLToText c9doc, startPage := 0 }] ∧
    (loadBookFromHTML runewidthModel c9doc 80 25).title = "Untitled" := by
  have h := c9_single_chapter_fallback runewidthModel c9doc 80 25
  have htitle : extractTitle c9doc = "" := by decide
  have hhead : findHeadings c9doc.data = [] := by decide
  refine ⟨?_, h.2 htitle⟩
  have h1 := h.1 (Or.inl hhead)
  rw [h1]
  simp [htitle]

theorem range_map_getD {α β : Type} (f : α → β) (d : α) :
    ∀ l : List α, (List.range l.length).map (fun i => f (l.getD i d)) = l.map f := by
  intro l
  induction l with
  | nil => rfl
  | cons a rest ih =>
    show (List.range (rest.length + 1)).map (fun i => f ((a :: rest).getD i d)) = _
    rw [List.range_succ_eq_map, List.map_cons, List.map_map]
    refine congrArg₂ _ rfl ?_
    show (List.range rest.length).map
      (fun i => f ((a :: rest).getD (Nat.succ i) d)) = rest.map f
    simp only [List.getD_cons_succ]
    exact ih

/-- Amended C5: building the index lowercases every display name into a
parallel array in input order — it performs no sort, so the keys are sorted
exactly when the lowercased input already is; the binary search relies on
that precondition. -/
theorem c5_build_parallel_amended (authors : List String) :
    authorsLowerOf authors = authors.map goToLower ∧
    (authorsLowerOf authors).length = authors.length ∧
    (List.Pairwise (fun a b => lexLe a.data b.data = true) (authors.map goToLower) →
      List.Pairwise (fun a b => lexLe a.data b.data = true) (authorsLowerOf authors)) := by
  have h1 : authorsLowerOf authors = authors.map goToLower :=
    range_map_getD goToLower "" authors
  refine ⟨h1, ?_, ?_⟩
  · rw [h1, List.length_map]
  · intro h
    rw [h1]
    exact h

/-- Witness for C5 on the specification's example list. -/
theorem c5_build_parallel_amended_witness :
    authorsLowerOf demoAuthors = demoAuthors.map goToLower ∧
    List.Pairwise (fun a b => lexLe a.data b.data = true) (authorsLowerOf demoAuthors) := by
  refine ⟨(c5_build_parallel_amended demoAuthors).1, ?_⟩
  exact (c5_build_parallel_amended demoAuthors).2.2 (by decide)

/-- Counterexample for C5 as stated: the build does not sort, so an input
that is not sorted by lowercased key yields an unsorted key array. -/
theorem c5_unsorted_counterexample :
    authorsLowerOf ["b", "a"] = ["b", "a"] ∧
    ¬ List.Pairwise (fun a b => lexLe a.data b.data = true) (authorsLowerOf ["b", "a"]) := by
  refine ⟨by decide, by decide⟩

theorem roundF_zero_left (b : ℤ) : roundF 0 b = ⟨0, 0⟩ := by
  simp [roundF]

theorem divF_zero (y : F64) : divF ⟨0, 0⟩ y = ⟨0, 0⟩ := by
  unfold divF
  dsimp only
  split_ifs <;> simp [roundF]

theorem mulF_zero (y : F64) : mulF ⟨0, 0⟩ y = ⟨0, 0⟩ := by
  unfold mulF
  dsimp only
  split_ifs <;> simp [roundF]

theorem ofIntF_zero : ofIntF 0 = ⟨0, 0⟩ := by
  simp [ofIntF, roundF]

theorem truncF_zero : truncF ⟨0, 0⟩ = 0 := by decide

/-- Amended C7: `remapPage` computes `clamp(trunc(progress * newTotal), 0,
newTotal-1)` in IEEE-754 binary64 arithmetic, which can round below the
exact-arithmetic value; the boundary facts survive exactly: page 0 maps to
page 0, a nonpositive prior total maps to 0, and for a positive new total
the result always lies in `[0, newTotal-1]`. -/
theorem c7_remap_amended (p T T2 : ℤ) :
    ((0 < T ∧ 0 < T2) → remapPage 0 T T2 = 0) ∧
    (T ≤ 0 → remapPage p T T2 = 0) ∧
    (0 < T2 → 0 ≤ remapPage p T T2 ∧ remapPage p T T2 < T2) := by
  refine ⟨?_, ?_, ?_⟩
  · rintro ⟨h1, h2⟩
    unfold remapPage
    rw [if_neg (by omega)]
    dsimp only
    rw [ofIntF_zero, divF_zero, mulF_zero, truncF_zero]
    split_ifs <;> omega
  · intro h
    unfold remapPage
    rw [if_pos (Or.inl h)]
  · intro h2
    unfold remapPage
    by_cases hg : T ≤ 0 ∨ T2 ≤ 0
    · rw [if_pos hg]
      omega
    · rw [if_neg hg]
      dsimp only
      split_ifs <;> omega

/-- Witness for C7 at concrete totals. -/
theorem c7_remap_amended_witness :
    remapPage 0 3 7 = 0 ∧ remapPage 5 (-2) 7 = 0 ∧
    (0 ≤ remapPage 2 3 7 ∧ remapPage 2 3 7 < 7) := by
  refine ⟨(c7_remap_amended 0 3 7).1 (by decide), ?_, (c7_remap_amended 2 3 7).2.2 (by decide)⟩
  exact (c7_remap_amended 5 (-2) 7).2.1 (by decide)

set_option maxRecDepth 40000 in
/-- Counterexample for C7 as stated: at `(oldPage, oldTotal, newTotal) =
(1, 49, 49)` exact arithmetic gives `clamp(floor((1/49)*49), 0, 48) = 1`,
but in binary64 `(1.0/49.0)*49.0` rounds to `0.9999999999999999`, which
truncates to page 0. -/
theorem c7_float_rounding_counterexample :
    remapPage 1 49 49 = 0 ∧
    max 0 (min ((1 * 49) / 49) (49 - 1)) = (1 : ℤ) ∧
    remapPage 1 49 49 ≠ max 0 (min ((1 * 49) / 49) (49 - 1)) := by
  refine ⟨by decide, by decide, ?_⟩
  intro h
  rw [show remapPage 1 49 49 = 0 from by decide] at h
  rw [show max 0 (min ((1 * 49) / 49) (49 - 1)) = (1 : ℤ) from by decide] at h
  exact absurd h (by decide)

theorem lexLe_refl : ∀ l : List Char, lexLe l l = true := by
  intro l
  induction l with
  | nil => rfl
  | cons a as ih => simp [lexLe, lt_irrefl, ih]

theorem lexLe_trans :
    ∀ (a b c : List Char), lexLe a b = true → lexLe b c = true → lexLe a c = true := by
  intro a
  induction a with
  | nil => intro b c _ _; rfl
  | cons x xs ih =>
    intro b c h1 h2
    cases b with
    | nil => simp [lexLe] at h1
    | cons y ys =>
      cases c with
      | nil => simp [lexLe] at h2
      | cons z zs =>
        simp only [lexLe] at h1 h2 ⊢
        rcases lt_trichotomy x y with hxy | hxy | hxy
        · rcases lt_trichotomy y z with hyz | hyz | hyz
          · rw [if_pos (lt_trans hxy hyz)]
          · subst hyz
            rw [if_pos hxy]
          · rw [if_neg (lt_asymm hyz), if_pos hyz] at h2
            exact absurd h2 (by simp)
        · subst hxy
          rw [if_neg (lt_irrefl x), if_neg (lt_irrefl x)] at h1
          rcases lt_trichotomy x z with hyz | hyz | hyz
          · rw [if_pos hyz]
          · subst hyz
            rw [if_neg (lt_irrefl x), if_neg (lt_irrefl x)] at h2 ⊢
            exact ih ys zs h1 h2
          · rw [if_neg (lt_asymm hyz), if_pos hyz] at h2
            exact absurd h2 (by simp)
        · rw [if_neg (lt_asymm hxy), if_pos hxy] at h1
          exact absurd h1 (by simp)

theorem isPrefixOf_lexLe :
    ∀ (p l : List Char), p.isPrefixOf l = true → lexLe p l = true := by
  intro p
  induction p with
  | nil => intro l _; rfl
  | cons a ps ih =>
    intro l h
    cases l with
    | nil => simp [List.isPrefixOf] at h
    | cons b ls =>
      simp only [List.isPrefixOf, Bool.and_eq_true, beq_iff_eq] at h
      obtain ⟨hab, hps⟩ := h
      subst hab
      simp only [lexLe, if_neg (lt_irrefl a)]
      exact ih ls hps

theorem lexLe_of_not_isPrefixOf_interval :
    ∀ (p x y : List Char), lexLe p x = true → p.isPrefixOf x = false →
      lexLe x y = true → p.isPrefixOf y = false := by
  intro p
  induction p with
  | nil => intro x y _ h2 _; simp [List.isPrefixOf] at h2
  | cons a ps ih =>
    intro x y h1 h2 h3
    cases x with
    | nil => simp [lexLe] at h1
    | cons b xs =>
      cases y with
      | nil => simp [lexLe] at h3
      | cons c ys =>
        simp only [List.isPrefixOf, Bool.and_eq_true, beq_iff_eq] at h2 ⊢
        rw [Bool.and_eq_false_iff] at h2 ⊢
        simp only [lexLe] at h1 h3
        rcases lt_trichotomy a b with hab | hab | hab
        · rcases lt_trichotomy b c with hbc | hbc | hbc
          · left
            simp only [beq_eq_false_iff_ne]
            exact ne_of_lt (lt_trans hab hbc)
          · subst hbc
            left
            simp only [beq_eq_false_iff_ne]
            exact ne_of_lt hab
          · rw [if_neg (lt_asymm hbc), if_pos hbc] at h3
            exact absurd h3 (by simp)
        · subst hab
          rw [if_neg (lt_irrefl a), if_neg (lt_irrefl a)] at h1
          rcases h2 with h2 | h2
          · simp at h2
          · rcases lt_trichotomy a c with hbc | hbc | hbc
            · left
              simp only [beq_eq_false_iff_ne]
              exact ne_of_lt hbc
            · subst hbc
              rw [if_neg (lt_irrefl a), if_neg (lt_irrefl a)] at h3
              right
              exact ih xs ys h1 h2 h3
            · rw [if_neg (lt_asymm hbc), if_pos hbc] at h3
              exact absurd h3 (by simp)
        · rw [if_neg (lt_asymm hab), if_pos hab] at h1
          exact absurd h1 (by simp)

theorem sortSearchAux_spec (f : ℕ → Bool) (n : ℕ)
    (hmono : ∀ i j, i ≤ j → j < n → f i = true → f j = true) :
    ∀ (fuel i j : ℕ), i ≤ j → j ≤ n → j - i ≤ fuel →
      (∀ k, k < i → f k = false) → (∀ k, j ≤ k → k < n → f k = true) →
      (∀ k, k < sortSearchAux f fuel i j → f k = false) ∧
      (∀ k, sortSearchAux f fuel i j ≤ k → k < n → f k = true) ∧
      sortSearchAux f fuel i j ≤ j := by
  intro fuel
  induction fuel with
  | zero =>
    intro i j hij _ hfuel hlow hhigh
    have : i = j := by omega
    subst this
    exact ⟨hlow, hhigh, le_rfl⟩
  | succ fl ih =>
    intro i j hij hjn hfuel hlow hhigh
    have hstep : sortSearchAux f (fl + 1) i j =
        if i < j then
          if f ((i + j) / 2) then sortSearchAux f fl i ((i + j) / 2)
          else sortSearchAux f fl ((i + j) / 2 + 1) j
        else i := rfl
    rw [hstep]
    by_cases hlt : i < j
    · rw [if_pos hlt]
      have hh1 : i ≤ (i + j) / 2 := by omega
      have hh2 : (i + j) / 2 < j := by omega
      have hhn : (i + j) / 2 < n := by omega
      by_cases hf : f ((i + j) / 2) = true
      · rw [if_pos hf]
        have hup : ∀ k, (i + j) / 2 ≤ k → k < n → f k = true :=
          fun k hk hkn => hmono ((i + j) / 2) k hk hkn hf
        have := ih i ((i + j) / 2) hh1 (by omega) (by omega) hlow hup
        exact ⟨this.1, this.2.1, le_trans this.2.2 (le_of_lt hh2)⟩
      · rw [if_neg hf]
        have hlow' : ∀ k, k < (i + j) / 2 + 1 → f k = false := by
          intro k hk
          by_cases hki : k < i
          · exact hlow k hki
          · by_cases hfk : f k = true
            · exact absurd (hmono k ((i + j) / 2) (by omega) hhn hfk) hf
            · simpa using hfk
        have := ih ((i + j) / 2 + 1) j (by omega) hjn (by omega) hlow' hhigh
        exact this
    · rw [if_neg hlt]
      have : i = j := by omega
      subst this
      exact ⟨hlow, hhigh, le_rfl⟩

theorem goSortSearch_spec (f : ℕ → Bool) (n : ℕ)
    (hmono : ∀ i j, i ≤ j → j < n → f i = true → f j = true) :
    (∀ k, k < goSortSearch n f → f k = false) ∧
    (∀ k, goSortSearch n f ≤ k → k < n → f k = true) ∧
    goSortSearch n f ≤ n :=
  sortSearchAux_spec f n hmono n 0 n (Nat.zero_le n) le_rfl (by omega)
    (fun k hk => absurd hk (Nat.not_lt_zero k)) (fun k hk hkn => absurd hkn (by omega))

theorem collectAuthorsAux_spec (authors lower : List String) (p : String) (limit : ℤ)
    (b : ℕ) (hb : b ≤ lower.length) :
    ∀ (fuel i : ℕ) (acc : List String),
      lower.length - i ≤ fuel → i ≤ b →
      (∀ k, i ≤ k → k < b → p.data.isPrefixOf ((lower.getD k "").data) = true) →
      (b = lower.length ∨ p.data.isPrefixOf ((lower.getD b "").data) = false) →
      (0 < limit → (acc.length : ℤ) < limit) →
      collectAuthorsAux authors lower p limit fuel i acc =
        acc.reverse ++
          (if 0 < limit then
            ((List.range' i (b - i)).map (fun k => authors.getD k "")).take
              (limit.toNat - acc.length)
          else (List.range' i (b - i)).map (fun k => authors.getD k "")) := by
  intro fuel
  induction fuel with
  | zero =>
    intro i acc hfuel hib _ _ _
    have hieq : i = b := by omega
    have hbi : b - i = 0 := by omega
    rw [hbi]
    show acc.reverse = acc.reverse ++ _
    simp
  | succ fl ih =>
    intro i acc hfuel hib hPin hstop hacc
    have hstep : collectAuthorsAux authors lower p limit (fl + 1) i acc =
        if i < lower.length then
          if p.data.isPrefixOf ((lower.getD i "").data) then
            if 0 < limit ∧ limit ≤ ((authors.getD i "" :: acc).length : ℤ) then
              (authors.getD i "" :: acc).reverse
            else collectAuthorsAux authors lower p limit fl (i + 1) (authors.getD i "" :: acc)
          else acc.reverse
        else acc.reverse := rfl
    rw [hstep]
    by_cases hin : i < lower.length
    · rw [if_pos hin]
      by_cases hieq : i = b
      · have hPb : p.data.isPrefixOf ((lower.getD b "").data) = false := by
          rcases hstop with h | h
          · omega
          · exact h
        rw [hieq, hPb]
        show acc.reverse = acc.reverse ++ _
        have hbi : b - b = 0 := by omega
        rw [hbi]
        simp
      · have hilt : i < b := by omega
        rw [hPin i le_rfl hilt]
        show (if 0 < limit ∧ limit ≤ ((authors.getD i "" :: acc).length : ℤ) then _ else _) = _
        have hrange : List.range' i (b - i) = i :: List.range' (i + 1) (b - i - 1) := by
          have h : b - i = (b - i - 1) + 1 := by omega
          rw [h, List.range'_succ]
          simp
        by_cases hbreak : 0 < limit ∧ limit ≤ ((authors.getD i "" :: acc).length : ℤ)
        · rw [if_pos hbreak]
          obtain ⟨hl, hle⟩ := hbreak
          have h1 : (acc.length : ℤ) < limit := hacc hl
          have h2 : limit.toNat - acc.length = 1 := by
            simp only [List.length_cons] at hle
            omega
          rw [if_pos hl, hrange, List.map_cons, h2, List.take_succ_cons, List.take_zero,
            List.reverse_cons]
        · rw [if_neg hbreak]
          have hacc' : 0 < limit → (((authors.getD i "" :: acc).length : ℤ)) < limit := by
            intro hl
            rcases not_and_or.mp hbreak with h | h
            · exact absurd hl h
            · omega
          rw [ih (i + 1) (authors.getD i "" :: acc) (by omega) (by omega)
            (fun k hk1 hk2 => hPin k (by omega) hk2) hstop hacc']
          rw [List.reverse_cons, hrange, List.map_cons]
          by_cases hl : 0 < limit
          · rw [if_pos hl, if_pos hl]
            have h1 : (acc.length : ℤ) < limit := hacc hl
            have h2 : limit.toNat - acc.length = (limit.toNat - (acc.length + 1)) + 1 := by
              omega
            rw [h2, List.take_succ_cons]
            simp only [List.length_cons, List.append_assoc, List.singleton_append,
              Nat.sub_sub]
          · rw [if_neg hl, if_neg hl]
            simp only [List.append_assoc, List.singleton_append, Nat.sub_sub]
    · rw [if_neg hin]
      have hieq : i = b := by omega
      have hbi : b - i = 0 := by omega
      rw [hbi]
      show acc.reverse = acc.reverse ++ _
      simp

theorem filter_eq_drop_take (P : String → Bool) :
    ∀ (l : List String) (s e : ℕ), e ≤ l.length →
      (∀ i (h : i < l.length), P (l.get ⟨i, h⟩) = true ↔ (s ≤ i ∧ i < e)) →
      l.filter P = (l.drop s).take (e - s) := by
  intro l
  induction l with
  | nil => intro s e _ _; simp
  | cons a t ih =>
    intro s e he hiff
    have hlen : t.length + 1 = (a :: t).length := by simp
    have hshift : ∀ i (h : i < t.length),
        P (t.get ⟨i, h⟩) = true ↔ (s ≤ i + 1 ∧ i + 1 < e) := by
      intro i h
      have h2 : i + 1 < (a :: t).length := by simp; omega
      have := hiff (i + 1) h2
      rwa [List.get_cons_succ] at this
    by_cases hs : s = 0
    · subst hs
      by_cases he0 : e = 0
      · subst he0
        have hall : ∀ x ∈ a :: t, ¬ P x = true := by
          intro x hx
          obtain ⟨i, hgx⟩ := List.mem_iff_get.mp hx
          rw [← hgx, hiff i.1 i.2]
          omega
        rw [List.filter_eq_nil.mpr hall]
        simp
      · have h0 : P a = true ↔ 0 ≤ 0 ∧ 0 < e := hiff 0 (by simp)
        have hPa : P a = true := h0.mpr ⟨le_rfl, by omega⟩
        rw [List.filter_cons_of_pos hPa]
        have hiht := ih 0 (e - 1) (by simp at he; omega) (fun i h => by
          rw [hshift i h]; omega)
        rw [hiht]
        show a :: (t.drop 0).take (e - 1 - 0) = ((a :: t).drop 0).take (e - 0)
        have h3 : e = (e - 1) + 1 := by omega
        simp only [List.drop_zero, Nat.sub_zero]
        rw [h3, List.take_succ_cons]
        simp
    · have h0 : P a = true ↔ s ≤ 0 ∧ 0 < e := hiff 0 (by simp)
      have hPa : ¬ P a = true := by
        rw [h0]
        omega
      rw [List.filter_cons_of_neg hPa]
      have hiht := ih (s - 1) (e - 1) (by simp at he; omega) (fun i h => by
        rw [hshift i h]; omega)
      rw [hiht]
      have h4 : s = (s - 1) + 1 := by omega
      have h5 : (e - 1) - (s - 1) = e - s := by omega
      rw [h5, h4, List.drop_succ_cons]
      have h6 : e - ((s - 1) + 1) = e - s := by omega
      rw [h6]
      simp

theorem range'_map_getD (l : List String) :
    ∀ (m s : ℕ), s + m ≤ l.length →
      (List.range' s m).map (fun k => l.getD k "") = (l.drop s).take m := by
  intro m
  induction m with
  | zero => intro s _; simp
  | succ mm ih =>
    intro s hsm
    rw [List.range'_succ, List.map_cons, ih (s + 1) (by omega)]
    have hs : s < l.length := by omega
    rw [List.getD_eq_get l "" hs]
    rw [show l.drop s = l.get ⟨s, hs⟩ :: l.drop (s + 1) from List.drop_eq_get_cons hs]
    rfl

/-- Amended C6: for an index whose lowercased keys are sorted (the
precondition the binary search needs) and a nonnegative limit, the lookup
returns exactly the display names whose lowercased key has the trimmed,
lowercased query as a prefix, in key order, truncated to `limit` when
`limit > 0` (`limit = 0` is unbounded); an empty query yields the empty
result.  A negative limit makes the Go code panic (`make` with negative
capacity), modelled as `none`, so that part of the original claim is
dropped. -/
theorem c6_lookup_amended (authors : List String) (query : String) (limit : ℤ)
    (hsorted : List.Pairwise (fun a b => lexLe a.data b.data = true)
      (authorsLowerOf authors))
    (hlim : 0 ≤ limit) :
    filterAuthors authors (authorsLowerOf authors) query limit =
      some (limitTake limit (authors.filter (fun a =>
        (goTrimSpace (goToLower query) != "") &&
        (goTrimSpace (goToLower query)).data.isPrefixOf (goToLower a).data))) := by
  have hlower : authorsLowerOf authors = authors.map goToLower :=
    range_map_getD goToLower "" authors
  have hN : (authorsLowerOf authors).length = authors.length := by
    rw [hlower, List.length_map]
  unfold filterAuthors
  dsimp only
  by_cases hpe : goTrimSpace (goToLower query) = ""
  · rw [if_pos hpe]
    have hfilter : authors.filter (fun a =>
        (goTrimSpace (goToLower query) != "") &&
        (goTrimSpace (goToLower query)).data.isPrefixOf (goToLower a).data) = [] := by
      apply List.filter_eq_nil.mpr
      intro x _
      simp [hpe]
    rw [hfilter]
    simp [limitTake]
  · rw [if_neg hpe, if_neg (by omega : ¬ limit < 0)]
    set p := goTrimSpace (goToLower query) with hpdef
    set f := fun i => lexLe p.data (((authorsLowerOf authors).getD i "").data) with hfdef
    set start := goSortSearch (authorsLowerOf authors).length f with hstartdef
    have hmono : ∀ i j, i ≤ j → j < (authorsLowerOf authors).length →
        f i = true → f j = true := by
      intro i j hij hj hfi
      rcases Nat.lt_or_ge i j with hlt | hge
      · have hi : i < (authorsLowerOf authors).length := lt_trans hlt hj
        have hkey := List.pairwise_iff_get.mp hsorted ⟨i, hi⟩ ⟨j, hj⟩ hlt
        rw [hfdef]
        dsimp only
        rw [List.getD_eq_get _ "" hj]
        rw [hfdef] at hfi
        dsimp only at hfi
        rw [List.getD_eq_get _ "" hi] at hfi
        exact lexLe_trans _ _ _ hfi hkey
      · have : i = j := by omega
        subst this
        exact hfi
    obtain ⟨hA, hB, hC⟩ :=
      goSortSearch_spec f (authorsLowerOf authors).length hmono
    have hQex : ∃ j, (start + j = (authorsLowerOf authors).length ∨
        p.data.isPrefixOf (((authorsLowerOf authors).getD (start + j) "").data) = false) :=
      ⟨(authorsLowerOf authors).length - start, Or.inl (by omega)⟩
    have hstop := Nat.find_spec hQex
    have hmin := fun j hj => Nat.find_min hQex (m := j) hj
    have hfind_le : Nat.find hQex ≤ (authorsLowerOf authors).length - start :=
      Nat.find_min' hQex (Or.inl (by omega))
    set b := start + Nat.find hQex with hbdef
    have hble : b ≤ (authorsLowerOf authors).length := by omega
    have hPin : ∀ k, start ≤ k → k < b →
        p.data.isPrefixOf (((authorsLowerOf authors).getD k "").data) = true := by
      intro k h1 h2
      have hm := hmin (k - start) (by omega)
      push_neg at hm
      have hm2 := hm.2
      rw [show start + (k - start) = k by omega] at hm2
      cases hPk : p.data.isPrefixOf (((authorsLowerOf authors).getD k "").data) with
      | true => rfl
      | false => exact absurd hPk hm2
    have hstop' : b = (authorsLowerOf authors).length ∨
        p.data.isPrefixOf (((authorsLowerOf authors).getD b "").data) = false := hstop
    have hcol := collectAuthorsAux_spec authors (authorsLowerOf authors) p limit b hble
      (authorsLowerOf authors).length start [] (Nat.sub_le _ _) (by omega) hPin hstop'
      (by intro hl; simpa using hl)
    rw [hcol]
    simp only [List.reverse_nil, List.nil_append, List.length_nil, Nat.sub_zero]
    have hkeyget : ∀ i (h : i < authors.length),
        (authorsLowerOf authors).getD i "" = goToLower (authors.get ⟨i, h⟩) := by
      intro i h
      have h2 : i < (authors.map goToLower).length := by
        rw [List.length_map]; exact h
      rw [hlower, List.getD_eq_get _ "" h2, List.get_map]
    have hiff : ∀ i (h : i < authors.length),
        ((p != "") && p.data.isPrefixOf (goToLower (authors.get ⟨i, h⟩)).data) = true ↔
          (start ≤ i ∧ i < b) := by
      intro i h
      have hp1 : (p != "") = true := by simpa using hpe
      rw [hp1, Bool.true_and, ← hkeyget i h]
      constructor
      · intro hPi
        have hiN : i < (authorsLowerOf authors).length := by omega
        constructor
        · by_contra hlt
          push_neg at hlt
          have hfi := hA i hlt
          rw [hfdef] at hfi
          dsimp only at hfi
          rw [isPrefixOf_lexLe _ _ hPi] at hfi
          exact absurd hfi (by simp)
        · by_contra hge
          push_neg at hge
          have hbN : b < (authorsLowerOf authors).length := by omega
          have hPb : p.data.isPrefixOf (((authorsLowerOf authors).getD b "").data) = false := by
            rcases hstop' with hs | hs
            · omega
            · exact hs
          have hfb := hB b (by omega) hbN
          rw [hfdef] at hfb
          dsimp only at hfb
          have hkeyord : lexLe (((authorsLowerOf authors).getD b "").data)
              (((authorsLowerOf authors).getD i "").data) = true := by
            rcases Nat.lt_or_ge b i with hlt | hge2
            · have hkey := List.pairwise_iff_get.mp hsorted ⟨b, hbN⟩ ⟨i, hiN⟩ hlt
              rw [List.getD_eq_get _ "" hbN, List.getD_eq_get _ "" hiN]
              exact hkey
            · have : b = i := by omega
              subst this
              exact lexLe_refl _
          have hcontra := lexLe_of_not_isPrefixOf_interval p.data _ _ hfb hPb hkeyord
          rw [hPi] at hcontra
          exact absurd hcontra (by simp)
      · rintro ⟨h1, h2⟩
        exact hPin i h1 h2
    have hfil := filter_eq_drop_take
      (fun a => (p != "") && p.data.isPrefixOf (goToLower a).data) authors start b
      (by omega) hiff
    have hrmap := range'_map_getD authors (b - start) start (by omega)
    rw [hfil, ← hrmap]
    rfl

/-- Witness for C6 on the specification's example: the query "d" with limit
10 returns Doyle then Dumas. -/
theorem c6_lookup_amended_witness :
    filterAuthors demoAuthors (authorsLowerOf demoAuthors) "d" 10 =
      some ["Doyle, Arthur Conan", "Dumas, Alexandre"] := by
  have h := c6_lookup_amended demoAuthors "d" 10 (by decide) (by decide)
  rw [h]
  decide

/-- Counterexample for C6 as stated ("for every author list and every
query and limit"): a negative limit reaches `make([]list.Item, 0, limit)`,
which panics in Go (modelled `none`), instead of returning the two matching
names unbounded; and on an author list whose lowercased keys are not sorted
the binary-search-plus-scan misses matches: for `["b", "ab"]` and query
"a" the code returns no names although "ab" has "a" as a prefix. -/
theorem c6_negative_limit_counterexample :
    (filterAuthors demoAuthors (authorsLowerOf demoAuthors) "d" (-1) = none ∧
      (none : Option (List String)) ≠ some ["Doyle, Arthur Conan", "Dumas, Alexandre"]) ∧
    (filterAuthors ["b", "ab"] (authorsLowerOf ["b", "ab"]) "a" 10 = some [] ∧
      ("a".data.isPrefixOf (goToLower "ab").data) = true ∧
      (some [] : Option (List String)) ≠ some ["ab"]) := by
  refine ⟨⟨by decide, by decide⟩, by decide, by decide, by decide⟩

end Gutberg